import Mathlib

/-!
# Verification of the jsonld-tools graph engine

A shallow embedding of the core of `packages/jsonld-tools` (the JSON-LD
graph-filtering and subgraph-extraction engine) together with theorems
settling the specification claims about it.

Modelling conventions (JavaScript → Lean):
* JSON values are the inductive `JsonValue` (null / bool / number / string /
  array / object).  Numbers are modelled as `Int`; no claim depends on
  non-integral numerics.
* A `JsonLdEntity` (`{'@id': string, ...}`) is the structure `Entity`: the
  mandatory `@id` string plus the remaining properties as an ordered
  association list (JavaScript objects preserve insertion order; the model
  places `@id` first in `Object.keys` order, and `props` never carries the
  key `"@id"` itself).
* JavaScript `Set`/`Map` (insertion ordered, `set` keeps the original
  position of an existing key) are modelled as duplicate-free lists and
  association lists with `addUnique` / `assocSet`.
* `===` is modelled by `jsEq`: structural on primitives, `false` on two
  arrays/objects (JavaScript compares those by reference identity; two
  distinct literals are never identical).  Nested `@id` values are only
  treated as references when they are strings, matching the declared
  `JsonLdEntity` type.
-/

namespace JsonLdTools

/-- JSON value, as stored in an entity's properties. -/
inductive JsonValue where
  | null
  | bool (b : Bool)
  | num (n : Int)
  | str (s : String)
  | arr (elems : List JsonValue)
  | obj (fields : List (String × JsonValue))
deriving Inhabited

/-- A JSON-LD entity: the required `@id` string plus all other properties
(insertion ordered, excluding the `@id` key). -/
structure Entity where
  id : String
  props : List (String × JsonValue)
deriving Inhabited

/-- First value stored under a key in an (insertion-ordered) object. -/
def lookupProp (key : String) : List (String × JsonValue) → Option JsonValue
  | [] => none
  | (k, v) :: rest => if k = key then some v else lookupProp key rest

/-- Model of `entity[key]` — `@id` resolves to the entity's id string. -/
def entityLookup (e : Entity) (key : String) : Option JsonValue :=
  if key = "@id" then some (.str e.id) else lookupProp key e.props

/-- Model of `key in entity` (own properties; the model ignores the prototype chain). -/
def entityHasKey (e : Entity) (key : String) : Bool :=
  key == "@id" || (e.props.map Prod.fst).contains key

/-- Model of `Object.keys(entity)` in the model's key order (`@id` first). -/
def entityKeys (e : Entity) : List String :=
  "@id" :: e.props.map Prod.fst

/-- JavaScript truthiness of a JSON value. -/
def jsTruthy : JsonValue → Bool
  | .null => false
  | .bool b => b
  | .num n => n != 0
  | .str s => s != ""
  | .arr _ => true
  | .obj _ => true

/-- JavaScript `===` on JSON values: structural on primitives; two
arrays/objects are compared by reference identity in JavaScript, so distinct
values are never `===`-equal — modelled as `false`. -/
def jsEq : JsonValue → JsonValue → Bool
  | .null, .null => true
  | .bool a, .bool b => a == b
  | .num a, .num b => a == b
  | .str a, .str b => a == b
  | _, _ => false

/-- Append an element to an insertion-ordered set unless already present
(JavaScript `Set.add`). -/
def addUnique (l : List String) (s : String) : List String :=
  if s ∈ l then l else l ++ [s]

/-- JavaScript `Map.set` / object property assignment on an insertion-ordered
association list: an existing key keeps its position and gets the new value,
a new key is appended. -/
def assocSet {α : Type} (m : List (String × α)) (k : String) (v : α) :
    List (String × α) :=
  if (m.map Prod.fst).contains k then
    m.map (fun p => if p.1 = k then (k, v) else p)
  else m ++ [(k, v)]

/-- First value for a key in an association list. -/
def assocLookup {α : Type} (m : List (String × α)) (k : String) : Option α :=
  match m with
  | [] => none
  | (k', v) :: rest => if k' = k then some v else assocLookup rest k

/-! ## Reference Resolver (`extractReferences`, jsonld-utils.ts) -/

/-- ASCII `[a-zA-Z]`. -/
def isAsciiAlpha (c : Char) : Bool :=
  ('a' ≤ c && c ≤ 'z') || ('A' ≤ c && c ≤ 'Z')

/-- The regex class `[a-zA-Z0-9+.-]`. -/
def isSchemeChar (c : Char) : Bool :=
  isAsciiAlpha c || ('0' ≤ c && c ≤ '9') || c == '+' || c == '.' || c == '-'

/-- JavaScript `\s` restricted to the common ASCII whitespace characters. -/
def isJsWhitespace (c : Char) : Bool :=
  c == ' ' || c == '\t' || c == '\n' || c == '\r' ||
    c == '\x0b' || c == '\x0c'

/-- The regex `^(?:[a-zA-Z][a-zA-Z0-9+.-]*:)[^\s]+$` from `extractReferences`.
Since `:` is not a scheme character, the greedy match is deterministic: an
ASCII letter, the maximal run of scheme characters, a colon, then a non-empty
whitespace-free tail. -/
def idPatternTest (s : String) : Bool :=
  match s.toList with
  | [] => false
  | c :: rest =>
    isAsciiAlpha c &&
      (match rest.dropWhile isSchemeChar with
       | ':' :: tail => !tail.isEmpty && tail.all (fun ch => !isJsWhitespace ch)
       | _ => false)

/-- The string heuristic of `extractReferences`: matches the compact-URI
pattern, contains a colon, and does not start with `http`. -/
def isIdReference (s : String) : Bool :=
  idPatternTest s && s.toList.contains ':' &&
    !(s.toList.take 4 == ['h', 't', 't', 'p'])

mutual

/-- Model of `scanValue` from `extractReferences`, accumulating the insertion-ordered
reference set. -/
def scanValue : JsonValue → List String → List String
  | .null, acc => acc
  | .bool _, acc => acc
  | .num _, acc => acc
  | .str s, acc => if isIdReference s then addUnique acc s else acc
  | .arr es, acc => scanValues es acc
  | .obj fs, acc =>
    -- `if (value['@id'])` — truthy string `@id`s are collected; then every
    -- property value of the object (including `@id`/`@type`) is scanned.
    let acc1 := match lookupProp "@id" fs with
      | some (.str s) => if s != "" then addUnique acc s else acc
      | _ => acc
    scanFields fs acc1

/-- Model of `value.forEach(scanValue)` over an array. -/
def scanValues : List JsonValue → List String → List String
  | [], acc => acc
  | v :: rest, acc => scanValues rest (scanValue v acc)

/-- Model of `Object.values(value).forEach(scanValue)` over an object. -/
def scanFields : List (String × JsonValue) → List String → List String
  | [], acc => acc
  | (_, v) :: rest, acc => scanFields rest (scanValue v acc)

end

/-- Model of `extractReferences(entity)`: scan every property except `@id`/`@type`,
returning the insertion-ordered set of referenced ids. -/
def extractReferences (e : Entity) : List String :=
  e.props.foldl
    (fun acc kv =>
      if kv.1 == "@id" || kv.1 == "@type" then acc else scanValue kv.2 acc)
    []

/-! ## Property Filter Engine (jsonld-utils.ts) -/

/-- A property-filter selector: the wildcard `'*'` or a record of expected
property values (the empty record also matches everything). -/
inductive PropertyFilterSelector where
  | star
  | fields (l : List (String × JsonValue))

/-- A property-filter rule `{selector, include?, exclude?}` (the `include` /
`exclude` fields are named `includeProps` / `excludeProps` because `include`
is a Lean keyword). -/
structure PropertyFilterRule where
  selector : PropertyFilterSelector
  includeProps : Option (List String) := none
  excludeProps : Option (List String) := none

/-- If the value is an object with a truthy `@id`, that `@id` value
(`typeof v === 'object' && v['@id']`). -/
def objTruthyId : JsonValue → Option JsonValue
  | .obj fs =>
    match lookupProp "@id" fs with
    | some v => if jsTruthy v then some v else none
    | none => none
  | _ => none

/-- Model of `matchesSelector(entity, selector)` restricted to evaluations
that return: it gives the source's boolean on every non-throwing run.  The
source can also throw a TypeError — `typeof null === 'object'`, so a null
selector value reaches `expectedValue['@id']`, and a null entity value can
reach `entityValue['@id']` — and those throwing paths are modelled
faithfully by `matchesSelectorE` below; the value-level claims (C4, C5) are
about the returned result, on which the two models agree. -/
def matchesSelector (e : Entity) (sel : PropertyFilterSelector) : Bool :=
  match sel with
  | .star => true
  | .fields l =>
    if l.isEmpty then true
    else
      l.all (fun kv =>
        let expected := kv.2
        match entityLookup e kv.1 with
        | none => false      -- entity[property] is undefined: never `===` a JSON value
        | some (.arr elems) => elems.any (fun x => jsEq x expected)
        | some ev =>
          match objTruthyId expected, objTruthyId ev with
          | some eid, some vid => jsEq vid eid
          | _, _ => jsEq ev expected)

/-- The rule-evaluation loop of `filterEntityProperties`: the last matching
rule's `include` list, and the union (insertion-ordered) of all matching
rules' `exclude` entries. -/
def evalRules (e : Entity) (rules : List PropertyFilterRule) :
    Option (List String) × List String :=
  rules.foldl
    (fun st rule =>
      if matchesSelector e rule.selector then
        (match rule.includeProps with
          | some inc => some inc
          | none => st.1,
         match rule.excludeProps with
          | some exc => exc.foldl addUnique st.2
          | none => st.2)
      else st)
    (none, [])

/-- Model of `filterEntityProperties(entity, config)`. -/
def filterEntityProperties (e : Entity) (rules : List PropertyFilterRule) :
    Entity :=
  let st := evalRules e rules
  let propertiesToInclude := match st.1 with
    | some inc => inc.filter (fun p => entityHasKey e p)
    | none => entityKeys e
  let kept := propertiesToInclude.filter (fun p => !st.2.contains p)
  { id := e.id   -- `const filteredEntity = { '@id': entity['@id'] }`
    props := kept.foldl
      (fun acc p =>
        if p == "@id" then acc
        else match entityLookup e p with
          | some v => assocSet acc p v
          | none => acc)   -- unreachable: kept properties exist on the entity
      [] }

/-- Model of `filterGraphProperties(graph, config)`. -/
def filterGraphProperties (graph : List Entity)
    (rules : List PropertyFilterRule) : List Entity :=
  graph.map (fun e => filterEntityProperties e rules)

/-- Apply the optional property filters of `extractSubgraph` to one entity. -/
def applyPropertyFilters (pf : Option (List PropertyFilterRule)) (e : Entity) :
    Entity :=
  match pf with
  | some rules => filterEntityProperties e rules
  | none => e

/-! ## Graph Index (`findEntity`, jsonld-utils.ts) -/

/-- Model of `findEntity(graph, id)`: first entity whose `@id` equals `id`. -/
def findEntity (graph : List Entity) (id : String) : Option Entity :=
  graph.find? (fun e => e.id == id)

theorem findEntity_mem {graph : List Entity} {id : String} {e : Entity}
    (h : findEntity graph id = some e) : e ∈ graph :=
  List.mem_of_find?_eq_some h

theorem findEntity_id {graph : List Entity} {id : String} {e : Entity}
    (h : findEntity graph id = some e) : e.id = id := by
  have := List.find?_some h
  simpa using this

/-! ## Subgraph Extractor (`extractSubgraph`, jsonld-utils.ts)

The worklist loop of `extractSubgraph` is embedded as `subgraphLoop`.
`visited` and `toProcess` model the JavaScript `Set`s (insertion ordered,
popped from the front), `result` models the insertion-ordered `Map`.
Termination is by the lexicographic measure
`(|(universe ∪ toProcess) \ visited|, |toProcess|)`: every id ever enqueued
is a reference of some (filtered) entity of the graph. -/

/-- The outgoing references the traversal computes for one graph entity. -/
def refsOf (pf : Option (List PropertyFilterRule)) (e : Entity) :
    List String :=
  extractReferences (applyPropertyFilters pf e)

/-- All ids any entity of the graph can enqueue during the traversal. -/
def idUniverse (graph : List Entity) (pf : Option (List PropertyFilterRule)) :
    List String :=
  graph.foldr (fun e acc => refsOf pf e ++ acc) []

theorem mem_idUniverse {pf} {e : Entity} {r : String} :
    ∀ {graph : List Entity}, e ∈ graph → r ∈ refsOf pf e →
      r ∈ idUniverse graph pf
  | [], he, _ => absurd he (by simp)
  | a :: t, he, hr => by
    show r ∈ refsOf pf a ++ idUniverse t pf
    rcases List.mem_cons.mp he with rfl | he'
    · exact List.mem_append.mpr (Or.inl hr)
    · exact List.mem_append.mpr (Or.inr (mem_idUniverse he' hr))

/-- The `references.forEach` enqueue step: add each reference not yet
visited, skipping ids already in the worklist (JavaScript `Set.add`). -/
def enqueueRefs (visited : List String) (refs : List String)
    (tp : List String) : List String :=
  refs.foldl (fun acc r => if r ∈ visited ∨ r ∈ acc then acc else acc ++ [r]) tp

theorem mem_enqueueRefs_of_mem {visited refs : List String} {tp : List String}
    {x : String} (hx : x ∈ tp) : x ∈ enqueueRefs visited refs tp := by
  induction refs generalizing tp with
  | nil => exact hx
  | cons r rs ih =>
    simp only [enqueueRefs, List.foldl_cons]
    split
    · exact ih hx
    · exact ih (by simp [hx])

theorem mem_of_mem_enqueueRefs {visited refs : List String} {tp : List String}
    {x : String} (hx : x ∈ enqueueRefs visited refs tp) : x ∈ tp ∨ x ∈ refs := by
  induction refs generalizing tp with
  | nil => exact Or.inl hx
  | cons r rs ih =>
    simp only [enqueueRefs, List.foldl_cons] at hx
    rcases hx' : ih hx with h | h
    · by_cases hr : r ∈ visited ∨ r ∈ tp
      · simp [hr] at h
        exact Or.inl h
      · simp [hr] at h
        rcases h with h | h
        · exact Or.inl h
        · exact Or.inr (by simp [h])
    · exact Or.inr (by simp [h])

theorem enqueueRefs_covers {visited refs : List String} {tp : List String}
    {r : String} (hr : r ∈ refs) : r ∈ visited ∨ r ∈ enqueueRefs visited refs tp := by
  induction refs generalizing tp with
  | nil => cases hr
  | cons a rs ih =>
    simp only [enqueueRefs, List.foldl_cons]
    rcases List.mem_cons.mp hr with rfl | hr
    · by_cases hv : r ∈ visited
      · exact Or.inl hv
      · refine Or.inr ?_
        by_cases ht : r ∈ tp
        · simp [hv, ht]
          exact mem_enqueueRefs_of_mem ht
        · simp [hv, ht]
          exact mem_enqueueRefs_of_mem (by simp)
    · exact ih hr

/-- Measure bookkeeping: popping an already-visited id leaves the frontier
set unchanged. -/
theorem frontier_eq_of_visited (U : Finset String) (visited rest : List String)
    (c : String) (hc : c ∈ visited) :
    (U ∪ (c :: rest).toFinset) \ visited.toFinset
      = (U ∪ rest.toFinset) \ visited.toFinset := by
  ext x
  by_cases hx : x = c
  · subst hx
    simp [hc]
  · simp [hx]

/-- Measure bookkeeping: visiting a fresh id strictly shrinks the frontier,
provided the new worklist only holds that id, old worklist ids, or
universe ids. -/
theorem frontier_card_lt (U : List String) (visited rest tp' : List String)
    (c : String) (hc : c ∉ visited)
    (hsub : ∀ x ∈ tp', x = c ∨ x ∈ rest ∨ x ∈ U) :
    ((U.toFinset ∪ tp'.toFinset) \ (visited ++ [c]).toFinset).card
      < ((U.toFinset ∪ (c :: rest).toFinset) \ visited.toFinset).card := by
  apply Finset.card_lt_card
  rw [Finset.ssubset_iff_of_subset]
  · refine ⟨c, ?_, ?_⟩
    · simp [hc]
    · simp
  · intro x hx
    simp only [Finset.mem_sdiff, Finset.mem_union, List.mem_toFinset,
      List.mem_append] at hx ⊢
    obtain ⟨hx1, hx2⟩ := hx
    push_neg at hx2
    refine ⟨?_, hx2.1⟩
    rcases hx1 with h | h
    · exact Or.inl h
    · rcases hsub x h with rfl | h | h
      · exact absurd (by simp) hx2.2
      · exact Or.inr (by simp [h])
      · exact Or.inl h

/-- The worklist loop of `extractSubgraph`: pop the oldest id, skip it if
visited, mark it visited, look it up (skipping silently when absent), record
the (possibly filtered) entity and enqueue its unvisited references. -/
def subgraphLoop (graph : List Entity) (pf : Option (List PropertyFilterRule)) :
    List String → List String → List (String × Entity) → List (String × Entity)
  | _, [], result => result
  | visited, c :: rest, result =>
    if c ∈ visited then
      subgraphLoop graph pf visited rest result
    else
      match hfind : findEntity graph c with
      | none => subgraphLoop graph pf (visited ++ [c]) rest result
      | some e =>
        subgraphLoop graph pf (visited ++ [c])
          (enqueueRefs (visited ++ [c])
            (extractReferences (applyPropertyFilters pf e)) rest)
          (result ++ [(c, applyPropertyFilters pf e)])
  termination_by visited toProcess _ =>
    ((((idUniverse graph pf).toFinset ∪ toProcess.toFinset)
        \ visited.toFinset).card,
     toProcess.length)
  decreasing_by
  · rename_i hc
    rw [frontier_eq_of_visited _ _ _ _ hc]
    exact Prod.Lex.right _ (by simp)
  · rename_i hc
    exact Prod.Lex.left _ _
      (frontier_card_lt _ _ _ _ _ hc (fun x hx => Or.inr (Or.inl hx)))
  · rename_i hc
    refine Prod.Lex.left _ _
      (frontier_card_lt _ _ _ _ _ hc (fun x hx => ?_))
    rcases mem_of_mem_enqueueRefs hx with h | h
    · exact Or.inr (Or.inl h)
    · exact Or.inr (Or.inr (mem_idUniverse (findEntity_mem hfind) h))

theorem subgraphLoop_nil (graph : List Entity) (pf) (visited : List String)
    (result : List (String × Entity)) :
    subgraphLoop graph pf visited [] result = result := by
  simp [subgraphLoop]

theorem subgraphLoop_visited (graph : List Entity) (pf) {visited : List String}
    {c : String} (rest : List String) (result : List (String × Entity))
    (hc : c ∈ visited) :
    subgraphLoop graph pf visited (c :: rest) result
      = subgraphLoop graph pf visited rest result := by
  rw [subgraphLoop]
  simp [hc]

theorem subgraphLoop_none (graph : List Entity) (pf) {visited : List String}
    {c : String} (rest : List String) (result : List (String × Entity))
    (hc : c ∉ visited) (hf : findEntity graph c = none) :
    subgraphLoop graph pf visited (c :: rest) result
      = subgraphLoop graph pf (visited ++ [c]) rest result := by
  rw [subgraphLoop]
  rw [if_neg hc]
  split
  · rfl
  · rename_i e heq
    rw [hf] at heq
    cases heq

theorem subgraphLoop_found (graph : List Entity) (pf) {visited : List String}
    {c : String} (rest : List String) (result : List (String × Entity))
    {e : Entity} (hc : c ∉ visited) (hf : findEntity graph c = some e) :
    subgraphLoop graph pf visited (c :: rest) result
      = subgraphLoop graph pf (visited ++ [c])
          (enqueueRefs (visited ++ [c])
            (extractReferences (applyPropertyFilters pf e)) rest)
          (result ++ [(c, applyPropertyFilters pf e)]) := by
  rw [subgraphLoop]
  rw [if_neg hc]
  split
  · rename_i heq
    rw [hf] at heq
    cases heq
  · rename_i e' heq
    rw [hf] at heq
    cases heq
    rfl

/-- Main invariant theorem for the worklist loop.  For any predicate `Q`
closed under following references from found entities: if all worklist state
is `Q`-sound, visited ids closed under references up to the worklist, and the
result map is exactly the found visited entities, then the final result is
the found part of a `Q`-sound, reference-closed set `V` containing the
initial state. -/
theorem subgraphLoop_spec (graph : List Entity)
    (pf : Option (List PropertyFilterRule)) (Q : String → Prop)
    (hQ : ∀ i e r, Q i → findEntity graph i = some e →
      r ∈ extractReferences (applyPropertyFilters pf e) → Q r) :
    ∀ visited toProcess result,
      (∀ i ∈ visited, Q i) →
      (∀ i ∈ toProcess, Q i) →
      (∀ i ∈ visited, ∀ e, findEntity graph i = some e →
        ∀ r ∈ extractReferences (applyPropertyFilters pf e),
          r ∈ visited ∨ r ∈ toProcess) →
      (∀ i e, i ∈ visited → findEntity graph i = some e →
        (i, applyPropertyFilters pf e) ∈ result) →
      (∀ p ∈ result, p.1 ∈ visited ∧
        ∃ e0, findEntity graph p.1 = some e0 ∧ p.2 = applyPropertyFilters pf e0) →
      ∃ V : List String,
        (∀ i ∈ visited, i ∈ V) ∧
        (∀ i ∈ toProcess, i ∈ V) ∧
        (∀ i ∈ V, Q i) ∧
        (∀ i ∈ V, ∀ e, findEntity graph i = some e →
          ∀ r ∈ extractReferences (applyPropertyFilters pf e), r ∈ V) ∧
        (∀ i e, i ∈ V → findEntity graph i = some e →
          (i, applyPropertyFilters pf e)
            ∈ subgraphLoop graph pf visited toProcess result) ∧
        (∀ p ∈ subgraphLoop graph pf visited toProcess result, p.1 ∈ V ∧
          ∃ e0, findEntity graph p.1 = some e0 ∧
            p.2 = applyPropertyFilters pf e0) := by
  intro visited toProcess result
  induction visited, toProcess, result using subgraphLoop.induct graph pf with
  | case1 visited result =>
    intro h1 _ h3 h4 h5
    rw [subgraphLoop_nil]
    refine ⟨visited, fun i hi => hi, by simp, h1, ?_, h4, h5⟩
    intro i hi e hf r hr
    rcases h3 i hi e hf r hr with h | h
    · exact h
    · cases h
  | case2 visited c rest result hc ih =>
    intro h1 h2 h3 h4 h5
    rw [subgraphLoop_visited graph pf rest result hc]
    obtain ⟨V, hv1, hv2, hv3, hv4, hv5, hv6⟩ :=
      ih h1 (fun i hi => h2 i (List.mem_cons_of_mem c hi))
        (fun i hi e hf r hr => by
          rcases h3 i hi e hf r hr with h | h
          · exact Or.inl h
          · rcases List.mem_cons.mp h with rfl | h
            · exact Or.inl hc
            · exact Or.inr h)
        h4 h5
    refine ⟨V, hv1, ?_, hv3, hv4, hv5, hv6⟩
    intro i hi
    rcases List.mem_cons.mp hi with hic | hi
    · rw [hic]
      exact hv1 c hc
    · exact hv2 i hi
  | case3 visited c rest result hc hfind ih =>
    intro h1 h2 h3 h4 h5
    rw [subgraphLoop_none graph pf rest result hc hfind]
    obtain ⟨V, hv1, hv2, hv3, hv4, hv5, hv6⟩ :=
      ih
        (fun i hi => by
          rcases List.mem_append.mp hi with hi | hi
          · exact h1 i hi
          · rw [List.mem_singleton.mp hi]
            exact h2 c (List.mem_cons_self c rest))
        (fun i hi => h2 i (List.mem_cons_of_mem c hi))
        (fun i hi e hf r hr => by
          rcases List.mem_append.mp hi with hi | hi
          · rcases h3 i hi e hf r hr with h | h
            · exact Or.inl (List.mem_append.mpr (Or.inl h))
            · rcases List.mem_cons.mp h with hrc | h
              · exact Or.inl (List.mem_append.mpr (Or.inr (by simp [hrc])))
              · exact Or.inr h
          · rw [List.mem_singleton.mp hi] at hf
            rw [hfind] at hf
            cases hf)
        (fun i e hi hf => by
          rcases List.mem_append.mp hi with hi | hi
          · exact h4 i e hi hf
          · rw [List.mem_singleton.mp hi] at hf
            rw [hfind] at hf
            cases hf)
        (fun p hp => by
          obtain ⟨hp1, hp2⟩ := h5 p hp
          exact ⟨List.mem_append.mpr (Or.inl hp1), hp2⟩)
    refine ⟨V, ?_, ?_, hv3, hv4, hv5, hv6⟩
    · intro i hi
      exact hv1 i (List.mem_append.mpr (Or.inl hi))
    · intro i hi
      rcases List.mem_cons.mp hi with hic | hi
      · rw [hic]
        exact hv1 c (List.mem_append.mpr (Or.inr (by simp)))
      · exact hv2 i hi
  | case4 visited c rest result hc e hfind ih =>
    intro h1 h2 h3 h4 h5
    rw [subgraphLoop_found graph pf rest result hc hfind]
    have hQc : Q c := h2 c (List.mem_cons_self c rest)
    obtain ⟨V, hv1, hv2, hv3, hv4, hv5, hv6⟩ :=
      ih
        (fun i hi => by
          rcases List.mem_append.mp hi with hi | hi
          · exact h1 i hi
          · rw [List.mem_singleton.mp hi]
            exact hQc)
        (fun i hi => by
          rcases mem_of_mem_enqueueRefs hi with hi | hi
          · exact h2 i (List.mem_cons_of_mem c hi)
          · exact hQ c e i hQc hfind hi)
        (fun i hi e' hf r hr => by
          rcases List.mem_append.mp hi with hi | hi
          · rcases h3 i hi e' hf r hr with h | h
            · exact Or.inl (List.mem_append.mpr (Or.inl h))
            · rcases List.mem_cons.mp h with hrc | h
              · exact Or.inl (List.mem_append.mpr (Or.inr (by simp [hrc])))
              · exact Or.inr (mem_enqueueRefs_of_mem h)
          · rw [List.mem_singleton.mp hi] at hf
            rw [hfind] at hf
            cases hf
            exact enqueueRefs_covers hr)
        (fun i e' hi hf => by
          rcases List.mem_append.mp hi with hi | hi
          · exact List.mem_append.mpr (Or.inl (h4 i e' hi hf))
          · rw [List.mem_singleton.mp hi] at hf ⊢
            rw [hfind] at hf
            cases hf
            exact List.mem_append.mpr (Or.inr (by simp)))
        (fun p hp => by
          rcases List.mem_append.mp hp with hp | hp
          · obtain ⟨hp1, hp2⟩ := h5 p hp
            exact ⟨List.mem_append.mpr (Or.inl hp1), hp2⟩
          · rcases List.mem_singleton.mp hp with rfl
            exact ⟨List.mem_append.mpr (Or.inr (by simp)), e, hfind, rfl⟩)
    refine ⟨V, ?_, ?_, hv3, hv4, hv5, hv6⟩
    · intro i hi
      exact hv1 i (List.mem_append.mpr (Or.inl hi))
    · intro i hi
      rcases List.mem_cons.mp hi with hic | hi
      · rw [hic]
        exact hv1 c (List.mem_append.mpr (Or.inr (by simp)))
      · exact hv2 i (mem_enqueueRefs_of_mem hi)

/-- Model of `extractSubgraph(graph, id, propertyFilters?)`. -/
def extractSubgraph (graph : List Entity) (id : String)
    (propertyFilters : Option (List PropertyFilterRule)) : List Entity :=
  (subgraphLoop graph propertyFilters [] [id] []).map Prod.snd

/-- Model of `extractSubgraphs(graph, ids, propertyFilters?)`: union the per-root
subgraphs into one id-keyed insertion-ordered map. -/
def extractSubgraphs (graph : List Entity) (ids : List String)
    (propertyFilters : Option (List PropertyFilterRule)) : List Entity :=
  (ids.foldl
      (fun acc id =>
        (extractSubgraph graph id propertyFilters).foldl
          (fun m e => assocSet m e.id e) acc)
      []).map Prod.snd

/-- Transitive reachability along the references the traversal follows: the
root id is reachable, and every reference extracted from the (possibly
filtered) entity found at a reachable id is reachable. -/
inductive ReachableFrom (graph : List Entity)
    (pf : Option (List PropertyFilterRule)) (root : String) : String → Prop
  | refl : ReachableFrom graph pf root root
  | step {i r : String} {e : Entity} :
      ReachableFrom graph pf root i → findEntity graph i = some e →
      r ∈ extractReferences (applyPropertyFilters pf e) →
      ReachableFrom graph pf root r

/-- Characterisation of `extractSubgraph` membership: exactly the (possibly
filtered) entities found at ids reachable from the root. -/
theorem extractSubgraph_mem_iff (graph : List Entity)
    (pf : Option (List PropertyFilterRule)) (root : String) (e : Entity) :
    e ∈ extractSubgraph graph root pf ↔
      ∃ i, ReachableFrom graph pf root i ∧
        ∃ e0, findEntity graph i = some e0 ∧ e = applyPropertyFilters pf e0 := by
  obtain ⟨V, _, htp, hQ, hcl, hres1, hres2⟩ :=
    subgraphLoop_spec graph pf (ReachableFrom graph pf root)
      (fun i e r hi hf hr => ReachableFrom.step hi hf hr)
      [] [root] []
      (by intro i hi; cases hi)
      (by
        intro i hi
        rw [List.mem_singleton.mp hi]
        exact ReachableFrom.refl)
      (by intro i hi; cases hi)
      (by intro i e hi; cases hi)
      (by intro p hp; cases hp)
  constructor
  · intro he
    obtain ⟨p, hp, hpe⟩ := List.mem_map.mp he
    obtain ⟨hpV, e0, hf, hfe⟩ := hres2 p hp
    exact ⟨p.1, hQ p.1 hpV, e0, hf, by rw [← hpe, hfe]⟩
  · rintro ⟨i, hreach, e0, hf, rfl⟩
    have hV : ∀ j, ReachableFrom graph pf root j → j ∈ V := by
      intro j hj
      induction hj with
      | refl => exact htp root (List.mem_singleton_self root)
      | step hr hf' hmem ih => exact hcl _ ih _ hf' _ hmem
    exact List.mem_map.mpr
      ⟨(i, applyPropertyFilters pf e0), hres1 i e0 (hV i hreach) hf, rfl⟩

/-- From a root with no matching entity, only the root itself is reachable. -/
theorem reachableFrom_unknown_root {graph : List Entity} {pf} {root i : String}
    (hnone : findEntity graph root = none)
    (h : ReachableFrom graph pf root i) : i = root := by
  induction h with
  | refl => rfl
  | step hr hf _ ih =>
    rw [ih] at hf
    rw [hnone] at hf
    cases hf

/-- C1: `extractSubgraph(graph, root)` (no property filters) returns
exactly the entities of the graph whose `@id` is transitively reachable from
the root via `extractReferences`, each looked up with `findEntity`: every
reachable entity that exists is included, every entity not reachable is
excluded, and ids with no matching entity — including an unknown root, which
yields the empty result — are skipped silently rather than raising an
error (the embedding is a total function; no error case exists). -/
theorem extractSubgraph_reachability_closure :
    (∀ (graph : List Entity) (root : String) (e : Entity),
        e ∈ extractSubgraph graph root none ↔
          ∃ i, ReachableFrom graph none root i ∧ findEntity graph i = some e) ∧
    (∀ (graph : List Entity) (root : String),
        findEntity graph root = none → extractSubgraph graph root none = []) := by
  constructor
  · intro graph root e
    rw [extractSubgraph_mem_iff graph none root e]
    constructor
    · rintro ⟨i, hr, e0, hf, rfl⟩
      exact ⟨i, hr, hf⟩
    · rintro ⟨i, hr, hf⟩
      exact ⟨i, hr, e, hf, rfl⟩
  · intro graph root hnone
    rw [List.eq_nil_iff_forall_not_mem]
    intro e he
    obtain ⟨i, hr, e0, hf, _⟩ := (extractSubgraph_mem_iff graph none root e).mp he
    rw [reachableFrom_unknown_root hnone hr] at hf
    rw [hnone] at hf
    cases hf

/-- Witness for C1: a root absent from the graph yields the empty result. -/
theorem extractSubgraph_reachability_closure_witness :
    extractSubgraph [] "root" none = [] :=
  extractSubgraph_reachability_closure.2 [] "root" rfl

/-- Property filtering never changes the `@id`. -/
theorem applyPropertyFilters_id (pf : Option (List PropertyFilterRule))
    (e : Entity) : (applyPropertyFilters pf e).id = e.id := by
  cases pf <;> rfl

/-- The ids recorded by the worklist loop stay duplicate-free. -/
theorem subgraphLoop_nodup (graph : List Entity)
    (pf : Option (List PropertyFilterRule)) :
    ∀ visited toProcess result,
      (∀ p ∈ result, p.1 ∈ visited) →
      ((result.map Prod.fst).Nodup) →
      ((subgraphLoop graph pf visited toProcess result).map Prod.fst).Nodup := by
  intro visited toProcess result
  induction visited, toProcess, result using subgraphLoop.induct graph pf with
  | case1 visited result =>
    intro _ h2
    rw [subgraphLoop_nil]
    exact h2
  | case2 visited c rest result hc ih =>
    intro h1 h2
    rw [subgraphLoop_visited graph pf rest result hc]
    exact ih h1 h2
  | case3 visited c rest result hc hfind ih =>
    intro h1 h2
    rw [subgraphLoop_none graph pf rest result hc hfind]
    exact ih (fun p hp => List.mem_append.mpr (Or.inl (h1 p hp))) h2
  | case4 visited c rest result hc e hfind ih =>
    intro h1 h2
    rw [subgraphLoop_found graph pf rest result hc hfind]
    refine ih
      (fun p hp => by
        rcases List.mem_append.mp hp with hp | hp
        · exact List.mem_append.mpr (Or.inl (h1 p hp))
        · rcases List.mem_singleton.mp hp with rfl
          exact List.mem_append.mpr (Or.inr (by simp)))
      ?_
    rw [List.map_append]
    rw [List.nodup_append]
    refine ⟨h2, by simp, ?_⟩
    intro x hx
    obtain ⟨p, hp, hpx⟩ := List.mem_map.mp hx
    simp only [List.map_cons, List.map_nil, List.mem_singleton]
    intro hxc
    exact hc (by rw [← hxc, ← hpx]; exact h1 p hp)

/-- C2: for every graph (finiteness is built into the model: graphs are
lists) and root id, `extractSubgraph` terminates — witnessed by the fact
that `subgraphLoop` is a total function, proved by well-founded recursion
that also covers graphs with reference cycles — and the result never
contains two entries with the same `@id`, so each entity on a cycle appears
exactly once. -/
theorem extractSubgraph_terminates_visits_once :
    ∀ (graph : List Entity) (root : String)
      (pf : Option (List PropertyFilterRule)),
      ((extractSubgraph graph root pf).map Entity.id).Nodup ∧
      (extractSubgraph graph root pf).Nodup := by
  intro graph root pf
  have hids : ((subgraphLoop graph pf [] [root] []).map Prod.fst).Nodup :=
    subgraphLoop_nodup graph pf [] [root] []
      (by intro p hp; cases hp) (by simp)
  obtain ⟨V, _, _, _, _, _, hres2⟩ :=
    subgraphLoop_spec graph pf (fun _ => True) (fun _ _ _ _ _ _ => trivial)
      [] [root] []
      (by intro i hi; cases hi) (by intro i hi; trivial)
      (by intro i hi; cases hi) (by intro i e hi; cases hi)
      (by intro p hp; cases hp)
  have hmapeq :
      (subgraphLoop graph pf [] [root] []).map (fun p => p.2.id)
        = (subgraphLoop graph pf [] [root] []).map Prod.fst := by
    apply List.map_congr_left
    intro p hp
    obtain ⟨_, e0, hf, hfe⟩ := hres2 p hp
    rw [hfe, applyPropertyFilters_id, findEntity_id hf]
  have h1 : ((extractSubgraph graph root pf).map Entity.id).Nodup := by
    unfold extractSubgraph
    rw [List.map_map]
    have : (Entity.id ∘ Prod.snd) = (fun p : String × Entity => p.2.id) := rfl
    rw [this, hmapeq]
    exact hids
  exact ⟨h1, h1.of_map Entity.id⟩

/-- Every entity in an extracted subgraph is the (possibly filtered) version
of the entity `findEntity` returns for its own `@id`. -/
theorem mem_extractSubgraph_found {graph : List Entity} {pf} {root : String}
    {e : Entity} (he : e ∈ extractSubgraph graph root pf) :
    ∃ e0, findEntity graph e.id = some e0 ∧ e = applyPropertyFilters pf e0 := by
  obtain ⟨i, _, e0, hf, rfl⟩ := (extractSubgraph_mem_iff graph pf root e).mp he
  have hid : (applyPropertyFilters pf e0).id = i := by
    rw [applyPropertyFilters_id]
    exact findEntity_id hf
  rw [hid]
  exact ⟨e0, hf, rfl⟩

/-- Two subgraph entities (from any roots) with the same `@id` are equal:
the traversal is deterministic in the entity, not the root. -/
theorem subgraph_entities_id_det {graph : List Entity} {pf} {r1 r2 : String}
    {e1 e2 : Entity} (h1 : e1 ∈ extractSubgraph graph r1 pf)
    (h2 : e2 ∈ extractSubgraph graph r2 pf) (hid : e1.id = e2.id) :
    e1 = e2 := by
  obtain ⟨f1, hf1, he1⟩ := mem_extractSubgraph_found h1
  obtain ⟨f2, hf2, he2⟩ := mem_extractSubgraph_found h2
  rw [hid] at hf1
  rw [hf2] at hf1
  cases hf1
  rw [he1, he2]

/-- Spec-side definition (from the spec's words, for the refinement claim
C3): keep each entity the **first** time its `@id` is discovered, dropping
later occurrences — "the first root processed wins", in first-discovery
order. -/
def specFirstWins (seen : List String) : List Entity → List Entity
  | [] => []
  | e :: t =>
    if e.id ∈ seen then specFirstWins seen t
    else e :: specFirstWins (seen ++ [e.id]) t

/-- Spec-side definition: the per-root subgraphs concatenated in root-list
order (the discovery order of the multi-root extraction). -/
def concatSubgraphs (graph : List Entity)
    (pf : Option (List PropertyFilterRule)) : List String → List Entity
  | [] => []
  | r :: t => extractSubgraph graph r pf ++ concatSubgraphs graph pf t

theorem specFirstWins_cons (seen : List String) (e : Entity) (t : List Entity) :
    specFirstWins seen (e :: t)
      = if e.id ∈ seen then specFirstWins seen t
        else e :: specFirstWins (seen ++ [e.id]) t := by
  simp only [specFirstWins]

theorem mem_concatSubgraphs {graph : List Entity} {pf} {e : Entity} :
    ∀ {roots : List String}, e ∈ concatSubgraphs graph pf roots →
      ∃ r, r ∈ roots ∧ e ∈ extractSubgraph graph r pf
  | [], h => absurd h (by simp [concatSubgraphs])
  | r :: t, h => by
    rcases List.mem_append.mp h with h | h
    · exact ⟨r, List.mem_cons_self r t, h⟩
    · obtain ⟨r', hr', he'⟩ := mem_concatSubgraphs h
      exact ⟨r', List.mem_cons_of_mem r hr', he'⟩

/-- The id-keyed map fold of `extractSubgraphs` equals keep-first-occurrence
deduplication whenever all insertions with equal keys carry equal values. -/
theorem foldl_assocSet_firstWins :
    ∀ (L : List Entity) (acc : List (String × Entity)),
      (∀ p ∈ acc, p.1 = p.2.id) →
      (∀ p ∈ acc, ∀ e ∈ L, e.id = p.1 → e = p.2) →
      (∀ e1 ∈ L, ∀ e2 ∈ L, e1.id = e2.id → e1 = e2) →
      (L.foldl (fun m e => assocSet m e.id e) acc).map Prod.snd
        = acc.map Prod.snd ++ specFirstWins (acc.map Prod.fst) L
  | [], acc, _, _, _ => by simp [specFirstWins]
  | e :: t, acc, hk, hcompat, hL => by
    rw [List.foldl_cons]
    by_cases hmem : e.id ∈ acc.map Prod.fst
    · have hacc : assocSet acc e.id e = acc := by
        unfold assocSet
        rw [if_pos (by simpa using hmem)]
        conv_rhs => rw [← List.map_id acc]
        apply List.map_congr_left
        intro p hp
        simp only [id_eq]
        by_cases hpe : p.1 = e.id
        · rw [if_pos hpe]
          have he2 := hcompat p hp e (List.mem_cons_self e t) hpe.symm
          exact Prod.ext hpe.symm he2
        · rw [if_neg hpe]
      rw [hacc]
      rw [specFirstWins_cons, if_pos hmem]
      exact foldl_assocSet_firstWins t acc hk
        (fun p hp e' he' => hcompat p hp e' (List.mem_cons_of_mem e he'))
        (fun e1 h1 e2 h2 =>
          hL e1 (List.mem_cons_of_mem e h1) e2 (List.mem_cons_of_mem e h2))
    · have hacc : assocSet acc e.id e = acc ++ [(e.id, e)] := by
        unfold assocSet
        rw [if_neg (by simpa using hmem)]
      rw [hacc]
      rw [specFirstWins_cons, if_neg hmem]
      have := foldl_assocSet_firstWins t (acc ++ [(e.id, e)])
        (fun p hp => by
          rcases List.mem_append.mp hp with hp | hp
          · exact hk p hp
          · rcases List.mem_singleton.mp hp with rfl
            rfl)
        (fun p hp e' he' hpe => by
          rcases List.mem_append.mp hp with hp | hp
          · exact hcompat p hp e' (List.mem_cons_of_mem e he') hpe
          · rcases List.mem_singleton.mp hp with rfl
            exact hL e' (List.mem_cons_of_mem e he') e
              (List.mem_cons_self e t) hpe)
        (fun e1 h1 e2 h2 =>
          hL e1 (List.mem_cons_of_mem e h1) e2 (List.mem_cons_of_mem e h2))
      rw [this]
      simp

/-- Model of `extractSubgraphs` folds over roots; this equals a single fold over the
root-order concatenation of subgraphs. -/
theorem extractSubgraphs_eq_concat_fold (graph : List Entity) (pf) :
    ∀ (roots : List String) (acc : List (String × Entity)),
      roots.foldl
          (fun acc id =>
            (extractSubgraph graph id pf).foldl
              (fun m e => assocSet m e.id e) acc) acc
        = (concatSubgraphs graph pf roots).foldl
            (fun m e => assocSet m e.id e) acc
  | [], acc => by simp [concatSubgraphs]
  | r :: t, acc => by
    rw [List.foldl_cons]
    rw [extractSubgraphs_eq_concat_fold graph pf t]
    rw [show concatSubgraphs graph pf (r :: t)
          = extractSubgraph graph r pf ++ concatSubgraphs graph pf t from rfl]
    rw [List.foldl_append]

/-- C3: in `extractSubgraphs(graph, rootIds, propertyFilters)`, the
union result equals the keep-first-discovery deduplication of the per-root
subgraphs concatenated in `rootIds` order: when an entity is reachable from
several roots, the value recorded is the (possibly filtered) view produced
while processing the first root (in list order) that discovered it, and the
result order is first-discovery order over roots processed in list order. -/
theorem extractSubgraphs_first_root_wins :
    ∀ (graph : List Entity) (roots : List String)
      (pf : Option (List PropertyFilterRule)),
      extractSubgraphs graph roots pf
        = specFirstWins [] (concatSubgraphs graph pf roots) := by
  intro graph roots pf
  unfold extractSubgraphs
  rw [extractSubgraphs_eq_concat_fold graph pf roots []]
  have := foldl_assocSet_firstWins (concatSubgraphs graph pf roots) []
    (by intro p hp; cases hp)
    (by intro p hp; cases hp)
    (by
      intro e1 h1 e2 h2 hid
      obtain ⟨r1, _, he1⟩ := mem_concatSubgraphs h1
      obtain ⟨r2, _, he2⟩ := mem_concatSubgraphs h2
      exact subgraph_entities_id_det he1 he2 hid)
  simpa using this

/-- C10: `findEntity(graph, id)` returns the entity at the smallest
array index whose `@id` equals `id`, and `none` when no entity matches —
hence with duplicate `@id`s every id-based lookup (and thus subgraph
extraction, which resolves worklist ids through `findEntity`) uses the
earliest entity and silently ignores later duplicates. -/
theorem findEntity_first_match :
    ∀ (graph : List Entity) (id : String),
      (∀ e, findEntity graph id = some e ↔
        ∃ n : Nat, ∃ hn : n < graph.length,
          graph.get ⟨n, hn⟩ = e ∧ e.id = id ∧
          ∀ m (hm : m < n), (graph.get ⟨m, Nat.lt_trans hm hn⟩).id ≠ id) ∧
      (findEntity graph id = none ↔ ∀ e ∈ graph, e.id ≠ id) := by
  intro graph id
  induction graph with
  | nil =>
    constructor
    · intro e
      constructor
      · intro h
        cases h
      · rintro ⟨n, hn, _⟩
        cases hn
    · simp [findEntity]
  | cons a t ih =>
    by_cases ha : a.id = id
    · constructor
      · intro e
        constructor
        · intro h
          have : some a = some e := by
            rw [← h]
            simp [findEntity, List.find?_cons, ha]
          cases this
          exact ⟨0, by simp, rfl, ha, fun m hm => absurd hm (Nat.not_lt_zero m)⟩
        · rintro ⟨n, hn, hget, hid, hmin⟩
          cases n with
          | zero =>
            simp only [List.get] at hget
            rw [← hget]
            simp [findEntity, List.find?_cons, ha]
          | succ n' =>
            exact absurd ha (hmin 0 (Nat.succ_pos n'))
      · constructor
        · intro h
          have : findEntity (a :: t) id = some a := by
            simp [findEntity, List.find?_cons, ha]
          rw [h] at this
          cases this
        · intro h
          exact absurd ha (h a (List.mem_cons_self a t))
    · have hfind : findEntity (a :: t) id = findEntity t id := by
        simp [findEntity, List.find?_cons, ha]
      constructor
      · intro e
        rw [hfind, (ih.1 e)]
        constructor
        · rintro ⟨n, hn, hget, hid, hmin⟩
          refine ⟨n + 1, Nat.succ_lt_succ hn, by simpa using hget, hid, ?_⟩
          intro m hm
          cases m with
          | zero => simpa using ha
          | succ m' =>
            have hm' : m' < n := Nat.lt_of_succ_lt_succ hm
            simpa using hmin m' hm'
        · rintro ⟨n, hn, hget, hid, hmin⟩
          cases n with
          | zero =>
            simp only [List.get] at hget
            rw [← hget] at hid
            exact absurd hid ha
          | succ n' =>
            refine ⟨n', Nat.lt_of_succ_lt_succ hn, by simpa using hget, hid, ?_⟩
            intro m hm
            have := hmin (m + 1) (Nat.succ_lt_succ hm)
            simpa using this
      · rw [hfind, ih.2]
        constructor
        · intro h e he
          rcases List.mem_cons.mp he with hea | het
          · rw [hea]
            exact ha
          · exact h e het
        · intro h e he
          exact h e (List.mem_cons_of_mem a he)

/-- Witness for C10: with two entities sharing `@id` `"a"`, `findEntity`
returns the one at index 0. -/
theorem findEntity_first_match_witness :
    findEntity [⟨"a", []⟩, ⟨"a", [("x", JsonValue.str "1")]⟩] "a"
      = some ⟨"a", []⟩ :=
  ((findEntity_first_match
      [⟨"a", []⟩, ⟨"a", [("x", JsonValue.str "1")]⟩] "a").1 ⟨"a", []⟩).mpr
    ⟨0, by decide, rfl, rfl, fun m hm => absurd hm (Nat.not_lt_zero m)⟩

/-! ## Claims C4 and C5: property-filter invariants -/

theorem lookupProp_eq_none_of_not_mem_keys {p : String} :
    ∀ {props : List (String × JsonValue)}, p ∉ props.map Prod.fst →
      lookupProp p props = none
  | [], _ => rfl
  | (k, v) :: rest, h => by
    have hk : k ≠ p := by
      intro hkp
      exact h (by simp [hkp])
    rw [show lookupProp p ((k, v) :: rest) = lookupProp p rest by
      simp [lookupProp, hk]]
    exact lookupProp_eq_none_of_not_mem_keys (fun hm => h (by simp [hm]))

theorem mem_foldl_addUnique_of_mem {p : String} :
    ∀ (xs : List String) {l : List String}, p ∈ l → p ∈ xs.foldl addUnique l
  | [], _, h => h
  | x :: xs, l, h => by
    rw [List.foldl_cons]
    apply mem_foldl_addUnique_of_mem xs
    unfold addUnique
    split
    · exact h
    · exact List.mem_append.mpr (Or.inl h)

theorem mem_foldl_addUnique_of_mem_list {p : String} :
    ∀ {xs : List String} (l : List String), p ∈ xs → p ∈ xs.foldl addUnique l
  | [], _, h => absurd h (by simp)
  | x :: xs, l, h => by
    rw [List.foldl_cons]
    rcases List.mem_cons.mp h with hpx | hpx
    · apply mem_foldl_addUnique_of_mem xs
      unfold addUnique
      rw [hpx]
      split
      · assumption
      · exact List.mem_append.mpr (Or.inr (by simp))
    · exact mem_foldl_addUnique_of_mem_list (addUnique l x) hpx

/-- The state update of one rule in `filterEntityProperties`. -/
def evalRuleStep (e : Entity) (st : Option (List String) × List String)
    (rule : PropertyFilterRule) : Option (List String) × List String :=
  if matchesSelector e rule.selector then
    (match rule.includeProps with
      | some inc => some inc
      | none => st.1,
     match rule.excludeProps with
      | some exc => exc.foldl addUnique st.2
      | none => st.2)
  else st

theorem evalRules_eq_foldl (e : Entity) (rules : List PropertyFilterRule) :
    evalRules e rules = rules.foldl (evalRuleStep e) (none, []) := rfl

theorem exclusions_mono (e : Entity) {p : String} :
    ∀ (rules : List PropertyFilterRule)
      (st : Option (List String) × List String), p ∈ st.2 →
      p ∈ (rules.foldl (evalRuleStep e) st).2
  | [], _, h => h
  | rule :: rules, st, h => by
    rw [List.foldl_cons]
    apply exclusions_mono e rules
    unfold evalRuleStep
    split
    · rcases hx : rule.excludeProps with _ | exc
      · simpa [hx] using h
      · simp only [hx]
        exact mem_foldl_addUnique_of_mem _ h
    · exact h

theorem mem_exclusions_of_rule (e : Entity) {p : String} :
    ∀ {rules : List PropertyFilterRule}
      (st : Option (List String) × List String) {rule : PropertyFilterRule},
      rule ∈ rules → matchesSelector e rule.selector = true →
      ∀ {exc}, rule.excludeProps = some exc → p ∈ exc →
      p ∈ (rules.foldl (evalRuleStep e) st).2
  | [], _, _, hmem, _, _, _, _ => absurd hmem (by simp)
  | r :: rules, st, rule, hmem, hmatch, exc, hexc, hp => by
    rw [List.foldl_cons]
    rcases List.mem_cons.mp hmem with hr | hr
    · apply exclusions_mono e rules
      rw [← hr]
      unfold evalRuleStep
      rw [if_pos hmatch]
      simp only [hexc]
      exact mem_foldl_addUnique_of_mem_list _ hp
    · exact mem_exclusions_of_rule e _ hr hmatch hexc hp

theorem assocSet_keys {α : Type} {m : List (String × α)} {k q : String}
    {v : α} (h : q ∈ (assocSet m k v).map Prod.fst) :
    q ∈ m.map Prod.fst ∨ q = k := by
  unfold assocSet at h
  split at h
  · rw [List.map_map] at h
    obtain ⟨pr, hpr, hq⟩ := List.mem_map.mp h
    by_cases hpk : pr.1 = k
    · simp only [Function.comp, hpk, if_pos] at hq
      exact Or.inr hq.symm
    · simp only [Function.comp, hpk, if_neg, ite_false] at hq
      exact Or.inl (List.mem_map.mpr ⟨pr, hpr, hq⟩)
  · rw [List.map_append] at h
    rcases List.mem_append.mp h with h | h
    · exact Or.inl h
    · exact Or.inr (by simpa using h)

theorem buildProps_keys (e : Entity) {q : String} :
    ∀ (ps : List String) (acc : List (String × JsonValue)),
      q ∈ ((ps.foldl
          (fun acc p =>
            if p == "@id" then acc
            else match entityLookup e p with
              | some v => assocSet acc p v
              | none => acc) acc).map Prod.fst) →
      q ∈ acc.map Prod.fst ∨ q ∈ ps
  | [], _, h => Or.inl h
  | p :: ps, acc, h => by
    rw [List.foldl_cons] at h
    rcases buildProps_keys e ps _ h with h' | h'
    · split at h'
      · exact Or.inl h'
      · split at h'
        · rcases assocSet_keys h' with h'' | h''
          · exact Or.inl h''
          · exact Or.inr (by simp [h''])
        · exact Or.inl h'
    · exact Or.inr (List.mem_cons_of_mem p h')

/-- C4: for every entity and every property-filter rule list, the result
of `filterEntityProperties` carries the key `@id` with the input entity's
`@id` value — even when rules exclude `@id` or every matching `include` list
omits it (the statement is universal over all rule lists, so those cases are
covered). -/
theorem filterEntityProperties_retains_id :
    ∀ (e : Entity) (rules : List PropertyFilterRule),
      (filterEntityProperties e rules).id = e.id ∧
      entityLookup (filterEntityProperties e rules) "@id"
        = some (JsonValue.str e.id) := by
  intro e rules
  refine ⟨rfl, ?_⟩
  rw [show entityLookup (filterEntityProperties e rules) "@id"
        = some (JsonValue.str (filterEntityProperties e rules).id) by
      simp [entityLookup]]
  rfl

/-- C5: for every entity, rule list, and property name `p ≠ "@id"`: if
any matching rule lists `p` in its `exclude`, then `p` is absent from the
result of `filterEntityProperties` — even when a matching rule (including
the last matching one) lists `p` in its `include`; exclude always wins. -/
theorem filterEntityProperties_exclude_wins :
    ∀ (e : Entity) (rules : List PropertyFilterRule) (p : String),
      p ≠ "@id" →
      (∃ rule, rule ∈ rules ∧ matchesSelector e rule.selector = true ∧
        ∃ exc, rule.excludeProps = some exc ∧ p ∈ exc) →
      entityLookup (filterEntityProperties e rules) p = none := by
  intro e rules p hpid ⟨rule, hmem, hmatch, exc, hexc, hp⟩
  have hexcl : p ∈ (evalRules e rules).2 := by
    rw [evalRules_eq_foldl]
    exact mem_exclusions_of_rule e _ hmem hmatch hexc hp
  have hkeys : p ∉ (filterEntityProperties e rules).props.map Prod.fst := by
    intro hkey
    unfold filterEntityProperties at hkey
    simp only at hkey
    rcases buildProps_keys e _ _ hkey with h | h
    · cases h
    · have h2 := (List.mem_filter.mp h).2
      simp at h2
      exact h2 hexcl
  rw [show entityLookup (filterEntityProperties e rules) p
        = lookupProp p (filterEntityProperties e rules).props by
      simp [entityLookup, hpid]]
  exact lookupProp_eq_none_of_not_mem_keys hkeys

/-- Witness for C5: a wildcard rule includes `name`, a later wildcard rule
excludes it; `name` is absent from the filtered entity. -/
theorem filterEntityProperties_exclude_wins_witness :
    entityLookup
      (filterEntityProperties
        ⟨"x", [("name", JsonValue.str "Dan")]⟩
        [⟨PropertyFilterSelector.star, some ["name"], none⟩,
         ⟨PropertyFilterSelector.star, none, some ["name"]⟩])
      "name" = none := by
  apply filterEntityProperties_exclude_wins
  · decide
  · exact ⟨⟨PropertyFilterSelector.star, none, some ["name"]⟩,
      by simp, rfl, ["name"], rfl, by simp⟩

/-! ## Entity Filter Engine (`filterJsonLdGraph`, builder-utils.ts) -/

/-- Property-filter rule keyed by entity ids (`PropertyFilterByIdRule`). -/
structure PropertyFilterByIdRule where
  entityIds : List String
  includeProps : Option (List String) := none
  excludeProps : Option (List String) := none

/-- Property-filter rule keyed by entity types (`PropertyFilterByTypeRule`). -/
structure PropertyFilterByTypeRule where
  entityTypes : List String
  includeProps : Option (List String) := none
  excludeProps : Option (List String) := none

/-- Model of `JsonLdFilterOptions` (types.ts). -/
structure JsonLdFilterOptions where
  includeTypes : Option (List String) := none
  excludeTypes : Option (List String) := none
  includeIds : Option (List String) := none
  excludeIds : Option (List String) := none
  customFilter : Option (Entity → Bool) := none
  maxEntities : Option Int := none
  requiredProperties : Option (List String) := none
  excludeEntitiesWithProperties : Option (List String) := none
  subgraphRoots : Option (List String) := none
  propertyFilters : Option (List PropertyFilterRule) := none
  propertyFiltersByIds : Option (List PropertyFilterByIdRule) := none
  propertyFiltersByTypes : Option (List PropertyFilterByTypeRule) := none

/-- Model of `Array.isArray(type) ? type : [type]`. -/
def entityTypesList : JsonValue → List JsonValue
  | .arr l => l
  | v => [v]

/-- Model of `types.some((t) => tys.includes(t))` — only string elements can equal a
string of `tys` under `===`. -/
def typesAnyIn (l : List JsonValue) (tys : List String) : Bool :=
  l.any (fun t => match t with
    | .str s => tys.contains s
    | _ => false)

/-- Pass 1 predicate: `@type` present, truthy, and intersecting
`includeTypes`. -/
def passIncludeTypes (tys : List String) (e : Entity) : Bool :=
  match lookupProp "@type" e.props with
  | none => false
  | some v => jsTruthy v && typesAnyIn (entityTypesList v) tys

/-- Pass 2 predicate: `@type` absent/falsy, or not intersecting
`excludeTypes`. -/
def passExcludeTypes (tys : List String) (e : Entity) : Bool :=
  match lookupProp "@type" e.props with
  | none => true
  | some v => !(jsTruthy v && typesAnyIn (entityTypesList v) tys)

/-- Pass 3 predicate: `entity['@id'] && includeIds.includes(entity['@id'])`. -/
def passIncludeIds (ids : List String) (e : Entity) : Bool :=
  (e.id != "") && ids.contains e.id

/-- Pass 4 predicate: `!entity['@id'] || !excludeIds.includes(entity['@id'])`. -/
def passExcludeIds (ids : List String) (e : Entity) : Bool :=
  (e.id == "") || !ids.contains e.id

/-- Pass 5 predicate: the entity has every required property. -/
def passRequiredProps (props : List String) (e : Entity) : Bool :=
  props.all (fun p => entityHasKey e p)

/-- Pass 6 predicate: the entity has none of the excluded properties. -/
def passExcludeProps (props : List String) (e : Entity) : Bool :=
  !props.any (fun p => entityHasKey e p)

/-- A pass of the form `if (options.xs && options.xs.length > 0)
filtered = filtered.filter(pred)`. -/
def guardedFilter (o : Option (List String))
    (pred : List String → Entity → Bool) (l : List Entity) : List Entity :=
  match o with
  | some xs => if 0 < xs.length then l.filter (pred xs) else l
  | none => l

/-- Pass 7: `if (options.customFilter) filtered =
filtered.filter(options.customFilter)`. -/
def applyCustom (o : Option (Entity → Bool)) (l : List Entity) : List Entity :=
  match o with
  | some f => l.filter f
  | none => l

/-- Pass 8: `if (options.maxEntities && options.maxEntities > 0)` — for a
number, truthy-and-positive is exactly `0 < m` — `filtered.slice(0,
options.maxEntities)`. -/
def applyMax (o : Option Int) (l : List Entity) : List Entity :=
  match o with
  | some m => if 0 < m then l.take m.toNat else l
  | none => l

/-- Model of `filterJsonLdGraph(graph, options)`: the fixed ordered pass sequence
(the legacy `excludeProperties` fallback field is not part of the typed
options and is not modelled). -/
def filterJsonLdGraph (graph : List Entity) (options : JsonLdFilterOptions) :
    List Entity :=
  applyMax options.maxEntities
    (applyCustom options.customFilter
      (guardedFilter options.excludeEntitiesWithProperties passExcludeProps
        (guardedFilter options.requiredProperties passRequiredProps
          (guardedFilter options.excludeIds passExcludeIds
            (guardedFilter options.includeIds passIncludeIds
              (guardedFilter options.excludeTypes passExcludeTypes
                (guardedFilter options.includeTypes passIncludeTypes
                  graph)))))))

theorem guardedFilter_sublist (o : Option (List String)) (pred)
    (l : List Entity) : (guardedFilter o pred l).Sublist l := by
  cases o with
  | none => exact List.Sublist.refl l
  | some xs =>
    simp only [guardedFilter]
    split
    · exact List.filter_sublist l
    · exact List.Sublist.refl l

theorem mem_guardedFilter_pred {o : Option (List String)} {xs : List String}
    {pred} {l : List Entity} {e : Entity} (ho : o = some xs)
    (hlen : 0 < xs.length) (he : e ∈ guardedFilter o pred l) :
    pred xs e = true := by
  subst ho
  simp only [guardedFilter] at he
  rw [if_pos hlen] at he
  exact List.of_mem_filter he

theorem applyCustom_sublist (o) (l : List Entity) :
    (applyCustom o l).Sublist l := by
  unfold applyCustom
  match o with
  | none => exact List.Sublist.refl l
  | some f => exact List.filter_sublist l

theorem mem_applyCustom_pred {o} {f : Entity → Bool} {l : List Entity}
    {e : Entity} (ho : o = some f) (he : e ∈ applyCustom o l) :
    f e = true := by
  subst ho
  exact List.of_mem_filter he

theorem applyMax_sublist (o : Option Int) (l : List Entity) :
    (applyMax o l).Sublist l := by
  cases o with
  | none => exact List.Sublist.refl l
  | some m =>
    simp only [applyMax]
    split
    · exact List.take_sublist m.toNat l
    · exact List.Sublist.refl l

theorem applyMax_length {m : Int} (hm : 0 < m) (l : List Entity) :
    (applyMax (some m) l).length ≤ m.toNat := by
  simp only [applyMax]
  rw [if_pos hm]
  rw [List.length_take]
  exact min_le_left _ _

/-- C6: for every graph and filter options, `filterJsonLdGraph` returns
an order-preserving subsequence of the input in which every surviving entity
satisfies each configured criterion of the fixed pass sequence, and — when
`maxEntities` is present and at least 1 — the result length is bounded by
`maxEntities`. -/
theorem filterJsonLdGraph_narrows :
    ∀ (graph : List Entity) (options : JsonLdFilterOptions),
      (filterJsonLdGraph graph options).Sublist graph ∧
      (∀ e ∈ filterJsonLdGraph graph options,
        (∀ tys, options.includeTypes = some tys → 0 < tys.length →
          passIncludeTypes tys e = true) ∧
        (∀ tys, options.excludeTypes = some tys → 0 < tys.length →
          passExcludeTypes tys e = true) ∧
        (∀ ids, options.includeIds = some ids → 0 < ids.length →
          passIncludeIds ids e = true) ∧
        (∀ ids, options.excludeIds = some ids → 0 < ids.length →
          passExcludeIds ids e = true) ∧
        (∀ ps, options.requiredProperties = some ps → 0 < ps.length →
          passRequiredProps ps e = true) ∧
        (∀ ps, options.excludeEntitiesWithProperties = some ps →
          0 < ps.length → passExcludeProps ps e = true) ∧
        (∀ f, options.customFilter = some f → f e = true)) ∧
      (∀ m, options.maxEntities = some m → 0 < m →
        (filterJsonLdGraph graph options).length ≤ m.toNat) := by
  intro graph options
  unfold filterJsonLdGraph
  refine ⟨?_, ?_, ?_⟩
  · exact ((((((((applyMax_sublist _ _).trans
      (applyCustom_sublist _ _)).trans
      (guardedFilter_sublist _ _ _)).trans
      (guardedFilter_sublist _ _ _)).trans
      (guardedFilter_sublist _ _ _)).trans
      (guardedFilter_sublist _ _ _)).trans
      (guardedFilter_sublist _ _ _)).trans
      (guardedFilter_sublist _ _ _))
  · intro e he
    have h7 := (applyMax_sublist options.maxEntities _).subset he
    have h6 := (applyCustom_sublist options.customFilter _).subset h7
    have h5 := (guardedFilter_sublist
      options.excludeEntitiesWithProperties passExcludeProps _).subset h6
    have h4 := (guardedFilter_sublist
      options.requiredProperties passRequiredProps _).subset h5
    have h3 := (guardedFilter_sublist
      options.excludeIds passExcludeIds _).subset h4
    have h2 := (guardedFilter_sublist
      options.includeIds passIncludeIds _).subset h3
    have h1 := (guardedFilter_sublist
      options.excludeTypes passExcludeTypes _).subset h2
    exact ⟨fun tys htys hlen => mem_guardedFilter_pred htys hlen h1,
      fun tys htys hlen => mem_guardedFilter_pred htys hlen h2,
      fun ids hids hlen => mem_guardedFilter_pred hids hlen h3,
      fun ids hids hlen => mem_guardedFilter_pred hids hlen h4,
      fun ps hps hlen => mem_guardedFilter_pred hps hlen h5,
      fun ps hps hlen => mem_guardedFilter_pred hps hlen h6,
      fun f hf => mem_applyCustom_pred hf h7⟩
  · intro m hm hmpos
    rw [hm]
    exact applyMax_length hmpos _

/-- Witness for C6: on a concrete graph with `includeTypes = ['Person']` and
`maxEntities = 2`, the result has at most 2 entities, each typed `Person`,
and is a subsequence (original relative order). -/
theorem filterJsonLdGraph_narrows_witness :
    (filterJsonLdGraph
        [⟨"a", [("@type", JsonValue.str "Person")]⟩,
         ⟨"b", [("@type", JsonValue.str "Place")]⟩,
         ⟨"c", [("@type", JsonValue.str "Person")]⟩]
        { includeTypes := some ["Person"], maxEntities := some 2}).Sublist
      [⟨"a", [("@type", JsonValue.str "Person")]⟩,
       ⟨"b", [("@type", JsonValue.str "Place")]⟩,
       ⟨"c", [("@type", JsonValue.str "Person")]⟩] ∧
    (∀ e ∈ filterJsonLdGraph
        [⟨"a", [("@type", JsonValue.str "Person")]⟩,
         ⟨"b", [("@type", JsonValue.str "Place")]⟩,
         ⟨"c", [("@type", JsonValue.str "Person")]⟩]
        { includeTypes := some ["Person"], maxEntities := some 2},
      passIncludeTypes ["Person"] e = true) ∧
    (filterJsonLdGraph
        [⟨"a", [("@type", JsonValue.str "Person")]⟩,
         ⟨"b", [("@type", JsonValue.str "Place")]⟩,
         ⟨"c", [("@type", JsonValue.str "Person")]⟩]
        { includeTypes := some ["Person"], maxEntities := some 2}).length
      ≤ (2 : Int).toNat := by
  obtain ⟨hsub, hmem, hlen⟩ := filterJsonLdGraph_narrows
    [⟨"a", [("@type", JsonValue.str "Person")]⟩,
     ⟨"b", [("@type", JsonValue.str "Place")]⟩,
     ⟨"c", [("@type", JsonValue.str "Person")]⟩]
    { includeTypes := some ["Person"], maxEntities := some 2}
  exact ⟨hsub,
    fun e he => (hmem e he).1 ["Person"] rfl (by decide),
    hlen 2 rfl (by decide)⟩

/-! ## Configuration Model (config.ts, types.ts) -/

/-- Model of `PopulateProperty` (types.ts). -/
structure PopulateProperty where
  property : String
  entities : List Entity

/-- Model of `PopulateConfig` (types.ts): a JavaScript object mapping entity ids to
populate rules, modelled as an insertion-ordered association list. -/
abbrev PopulateConfig := List (String × List PopulateProperty)

/-- The runtime value supplied as `baseGraph`.  The declared type is
`JsonLdGraph`, but `validateRuntimeConfig` guards with `Array.isArray`
against untyped callers; `notArray` stands for any truthy non-array value. -/
inductive BaseGraphValue where
  | ofGraph (g : List Entity)
  | notArray

/-- Model of `JsonLdConfig` (types.ts). -/
structure JsonLdConfig where
  baseGraph : Option BaseGraphValue := none
  filters : Option JsonLdFilterOptions := none
  additionalEntities : Option (List Entity) := none
  pipes : Option (List (List Entity → List Entity)) := none
  populateConfig : Option PopulateConfig := none

/-- Model of `createJsonLdConfig()` starts from the empty configuration `{}`. -/
def createJsonLdConfig : JsonLdConfig := {}

/-- Model of `JsonLdConfigBuilder.includeIds(ids)`: concatenates onto the existing
`filters.includeIds` (`this.config.filters?.includeIds || []`) and returns a
new configuration. -/
def JsonLdConfigBuilder.includeIds (c : JsonLdConfig) (ids : List String) :
    JsonLdConfig :=
  let existingIds := (c.filters.bind JsonLdFilterOptions.includeIds).getD []
  { c with
    filters := some
      { c.filters.getD {} with includeIds := some (existingIds ++ ids) } }

/-- Model of `JsonLdConfigBuilder.populateEntities(entityIds, populateConfig)`:
spread-copy the existing populate config, then for each listed entity id
with an entry in the argument, **assign** that entry
(`mergedPopulateConfig[entityId] = populateConfig[entityId]`). -/
def JsonLdConfigBuilder.populateEntities (c : JsonLdConfig)
    (entityIds : List String) (populateConfig : PopulateConfig) :
    JsonLdConfig :=
  let existing := c.populateConfig.getD []
  let merged := entityIds.foldl
    (fun m entityId =>
      match assocLookup populateConfig entityId with
      | some rules => assocSet m entityId rules
      | none => m)
    existing
  { c with populateConfig := some merged }

/-! ## Processing Pipeline (builder-utils.ts, builder.ts) -/

/-- Model of `convertPropertyFiltersByIds(rules)`. -/
def convertPropertyFiltersByIds (rules : List PropertyFilterByIdRule) :
    List PropertyFilterRule :=
  rules.foldr
    (fun rule acc =>
      rule.entityIds.map
          (fun entityId =>
            { selector := .fields [("@id", .str entityId)]
              includeProps := rule.includeProps
              excludeProps := rule.excludeProps })
        ++ acc)
    []

/-- Model of `convertPropertyFiltersByTypes(rules)`. -/
def convertPropertyFiltersByTypes (rules : List PropertyFilterByTypeRule) :
    List PropertyFilterRule :=
  rules.foldr
    (fun rule acc =>
      rule.entityTypes.map
          (fun entityType =>
            { selector := .fields [("@type", .str entityType)]
              includeProps := rule.includeProps
              excludeProps := rule.excludeProps })
        ++ acc)
    []

/-- Model of `buildPropertyFilterConfig(config)`: concatenate the three rule sources;
`undefined` when the combined list is empty. -/
def buildPropertyFilterConfig (config : JsonLdConfig) :
    Option (List PropertyFilterRule) :=
  let filters :=
    ((config.filters.bind JsonLdFilterOptions.propertyFilters).getD [])
      ++ convertPropertyFiltersByIds
          ((config.filters.bind JsonLdFilterOptions.propertyFiltersByIds).getD [])
      ++ convertPropertyFiltersByTypes
          ((config.filters.bind JsonLdFilterOptions.propertyFiltersByTypes).getD [])
  if 0 < filters.length then some filters else none

/-- Model of `validateRuntimeConfig(config)`: critical errors only. -/
def validateRuntimeConfig (config : JsonLdConfig) : List String :=
  (match config.baseGraph with
    | none => ["baseGraph is required"]
    | some .notArray => ["baseGraph must be an array"]
    | some (.ofGraph _) => []) ++
  (match config.filters.bind JsonLdFilterOptions.maxEntities with
    | some m => if m < 1 then ["maxEntities must be greater than 0"] else []
    | none => [])

/-- An entity as a JSON object value (used when populate rules store entity
lists as property values). -/
def entityToJson (e : Entity) : JsonValue :=
  .obj (("@id", .str e.id) :: e.props)

/-- Model of `applyPopulateConfig(graph, populateConfig)`: set each rule's property
to its fixed entity list (a rule naming `@id` is not representable in the
typed model and would shadow the id key in JavaScript). -/
def applyPopulateConfig (graph : List Entity)
    (populateConfig : PopulateConfig) : List Entity :=
  graph.map (fun e =>
    match assocLookup populateConfig e.id with
    | none => e
    | some rules =>
      if rules.isEmpty then e
      else
        rules.foldl
          (fun acc rule =>
            { acc with
              props := assocSet acc.props rule.property
                (.arr (rule.entities.map entityToJson)) })
          e)

/-! ### Error-aware property filtering

`matchesSelector` can throw in JavaScript: in the object-reference branch
`typeof expectedValue === 'object'` is true for `null`, so a null-valued
selector field reaches `expectedValue['@id']` and throws a TypeError, and —
when the expected value is an object with a truthy `@id` — a null entity
value reaches `entityValue['@id']` and throws as well.  The following
definitions model this exception behaviour with `Except`, mirroring the
source expression order (array check first, then the `&&` chain, then the
`===` fallthrough); the pipeline (`processGraph`) is built on them so that
its error behaviour matches the program's. -/

/-- JavaScript `===` where the left operand may be `undefined` (an absent
property): `undefined` equals no JSON value. -/
def jsEqUndef : Option JsonValue → JsonValue → Bool
  | none, _ => false
  | some v, w => jsEq v w

/-- One selector field of `matchesSelector`, with the source's throwing
paths: `Array.isArray(entityValue)` short-circuits first; then
`typeof expectedValue === 'object'` (true for null, arrays, objects) guards
`expectedValue['@id']`, which throws on null; a truthy expected `@id` then
guards `entityValue['@id']`, which throws when the entity value is null;
every failed guard falls through to `entityValue === expectedValue`. -/
def matchFieldE (e : Entity) (key : String) (expected : JsonValue) :
    Except String Bool :=
  let entityValue := entityLookup e key
  match entityValue with
  | some (.arr elems) => .ok (elems.any (fun x => jsEq x expected))
  | _ =>
    match expected with
    | .null => .error "TypeError: Cannot read properties of null (reading @id)"
    | .obj fs =>
      match lookupProp "@id" fs with
      | some idv =>
        if jsTruthy idv then
          match entityValue with
          | some .null =>
            .error "TypeError: Cannot read properties of null (reading @id)"
          | some (.obj efs) =>
            match lookupProp "@id" efs with
            | some eidv =>
              if jsTruthy eidv then .ok (jsEq eidv idv)
              else .ok (jsEqUndef entityValue expected)
            | none => .ok (jsEqUndef entityValue expected)
          | _ => .ok (jsEqUndef entityValue expected)
        else .ok (jsEqUndef entityValue expected)
      | none => .ok (jsEqUndef entityValue expected)
    | _ => .ok (jsEqUndef entityValue expected)

/-- `Object.entries(selector).every(...)`: fields in order, short-circuiting
on the first `false`, propagating the first thrown TypeError. -/
def everyFieldsE (e : Entity) : List (String × JsonValue) → Except String Bool
  | [] => .ok true
  | kv :: rest =>
    match matchFieldE e kv.1 kv.2 with
    | .error msg => .error msg
    | .ok false => .ok false
    | .ok true => everyFieldsE e rest

/-- Model of `matchesSelector(entity, selector)` with the throwing paths. -/
def matchesSelectorE (e : Entity) (sel : PropertyFilterSelector) :
    Except String Bool :=
  match sel with
  | .star => .ok true
  | .fields l => if l.isEmpty then .ok true else everyFieldsE e l

/-- The rule loop of `filterEntityProperties`, propagating selector throws. -/
def evalRulesE (e : Entity) :
    List PropertyFilterRule → Option (List String) × List String →
    Except String (Option (List String) × List String)
  | [], st => .ok st
  | rule :: rest, st =>
    match matchesSelectorE e rule.selector with
    | .error msg => .error msg
    | .ok b =>
      evalRulesE e rest
        (if b then
          (match rule.includeProps with
            | some inc => some inc
            | none => st.1,
           match rule.excludeProps with
            | some exc => exc.foldl addUnique st.2
            | none => st.2)
         else st)

/-- Model of `filterEntityProperties(entity, config)` with the throwing
selector evaluation; the result assembly after the rule loop is the same as
in the total `filterEntityProperties`. -/
def filterEntityPropertiesE (e : Entity) (rules : List PropertyFilterRule) :
    Except String Entity :=
  match evalRulesE e rules (none, []) with
  | .error msg => .error msg
  | .ok st =>
    let propertiesToInclude := match st.1 with
      | some inc => inc.filter (fun p => entityHasKey e p)
      | none => entityKeys e
    let kept := propertiesToInclude.filter (fun p => !st.2.contains p)
    .ok
      { id := e.id
        props := kept.foldl
          (fun acc p =>
            if p == "@id" then acc
            else match entityLookup e p with
              | some v => assocSet acc p v
              | none => acc)
          [] }

/-- Optional property filtering of one traversal step, with throws. -/
def applyPropertyFiltersE (pf : Option (List PropertyFilterRule))
    (e : Entity) : Except String Entity :=
  match pf with
  | some rules => filterEntityPropertiesE e rules
  | none => .ok e

/-- Model of `filterGraphProperties(graph, config)` with throws: the map
applies entity by entity and the first TypeError propagates. -/
def filterGraphPropertiesE (rules : List PropertyFilterRule) :
    List Entity → Except String (List Entity)
  | [] => .ok []
  | e :: rest =>
    match filterEntityPropertiesE e rules with
    | .error msg => .error msg
    | .ok fe =>
      match filterGraphPropertiesE rules rest with
      | .error msg => .error msg
      | .ok rest' => .ok (fe :: rest')

/-! ### Error-aware subgraph extraction

The traversal applies the property filters to each found entity before
computing its references, so a selector throw propagates out of
`extractSubgraph`.  The worklist and its termination measure are the same as
in `subgraphLoop`. -/

/-- The references one graph entity can enqueue in the throwing model (none
when filtering it throws: the loop aborts there). -/
def refsOfE (pf : Option (List PropertyFilterRule)) (e : Entity) :
    List String :=
  match applyPropertyFiltersE pf e with
  | .ok fe => extractReferences fe
  | .error _ => []

/-- All ids any entity of the graph can enqueue (throwing model). -/
def idUniverseE (graph : List Entity)
    (pf : Option (List PropertyFilterRule)) : List String :=
  graph.foldr (fun e acc => refsOfE pf e ++ acc) []

theorem mem_idUniverseE {pf} {e : Entity} {r : String} :
    ∀ {graph : List Entity}, e ∈ graph → r ∈ refsOfE pf e →
      r ∈ idUniverseE graph pf
  | [], he, _ => absurd he (by simp)
  | a :: t, he, hr => by
    show r ∈ refsOfE pf a ++ idUniverseE t pf
    rcases List.mem_cons.mp he with rfl | he'
    · exact List.mem_append.mpr (Or.inl hr)
    · exact List.mem_append.mpr (Or.inr (mem_idUniverseE he' hr))

/-- The worklist loop of `extractSubgraph` in the throwing model: identical
to `subgraphLoop`, except that a property-filter throw at a found entity
aborts the whole traversal with that error. -/
def subgraphLoopE (graph : List Entity)
    (pf : Option (List PropertyFilterRule)) :
    List String → List String → List (String × Entity) →
    Except String (List (String × Entity))
  | _, [], result => .ok result
  | visited, c :: rest, result =>
    if c ∈ visited then
      subgraphLoopE graph pf visited rest result
    else
      match hfind : findEntity graph c with
      | none => subgraphLoopE graph pf (visited ++ [c]) rest result
      | some e =>
        match happ : applyPropertyFiltersE pf e with
        | .error msg => .error msg
        | .ok fe =>
          subgraphLoopE graph pf (visited ++ [c])
            (enqueueRefs (visited ++ [c]) (extractReferences fe) rest)
            (result ++ [(c, fe)])
  termination_by visited toProcess _ =>
    ((((idUniverseE graph pf).toFinset ∪ toProcess.toFinset)
        \ visited.toFinset).card,
     toProcess.length)
  decreasing_by
  · rename_i hc
    rw [frontier_eq_of_visited _ _ _ _ hc]
    exact Prod.Lex.right _ (by simp)
  · rename_i hc
    exact Prod.Lex.left _ _
      (frontier_card_lt _ _ _ _ _ hc (fun x hx => Or.inr (Or.inl hx)))
  · rename_i hc
    refine Prod.Lex.left _ _
      (frontier_card_lt _ _ _ _ _ hc (fun x hx => ?_))
    rcases mem_of_mem_enqueueRefs hx with h | h
    · exact Or.inr (Or.inl h)
    · refine Or.inr (Or.inr (mem_idUniverseE (findEntity_mem hfind) ?_))
      simp only [refsOfE, happ]
      exact h

theorem subgraphLoopE_nil (graph : List Entity) (pf) (visited : List String)
    (result : List (String × Entity)) :
    subgraphLoopE graph pf visited [] result = .ok result := by
  simp [subgraphLoopE]

theorem subgraphLoopE_visited (graph : List Entity) (pf)
    {visited : List String} {c : String} (rest : List String)
    (result : List (String × Entity)) (hc : c ∈ visited) :
    subgraphLoopE graph pf visited (c :: rest) result
      = subgraphLoopE graph pf visited rest result := by
  rw [subgraphLoopE]
  simp [hc]

theorem subgraphLoopE_none (graph : List Entity) (pf)
    {visited : List String} {c : String} (rest : List String)
    (result : List (String × Entity)) (hc : c ∉ visited)
    (hf : findEntity graph c = none) :
    subgraphLoopE graph pf visited (c :: rest) result
      = subgraphLoopE graph pf (visited ++ [c]) rest result := by
  rw [subgraphLoopE]
  rw [if_neg hc]
  split
  · rfl
  · rename_i e heq
    rw [hf] at heq
    cases heq

theorem subgraphLoopE_errorPF (graph : List Entity) (pf)
    {visited : List String} {c : String} (rest : List String)
    (result : List (String × Entity)) {e : Entity} {msg : String}
    (hc : c ∉ visited) (hf : findEntity graph c = some e)
    (happ : applyPropertyFiltersE pf e = .error msg) :
    subgraphLoopE graph pf visited (c :: rest) result = .error msg := by
  rw [subgraphLoopE]
  rw [if_neg hc]
  split
  · rename_i heq
    rw [hf] at heq
    cases heq
  · rename_i e' heq
    rw [hf] at heq
    cases heq
    split
    · rename_i msg' happ'
      rw [happ] at happ'
      cases happ'
      rfl
    · rename_i fe happ'
      rw [happ] at happ'
      cases happ'

theorem subgraphLoopE_found (graph : List Entity) (pf)
    {visited : List String} {c : String} (rest : List String)
    (result : List (String × Entity)) {e fe : Entity} (hc : c ∉ visited)
    (hf : findEntity graph c = some e)
    (happ : applyPropertyFiltersE pf e = .ok fe) :
    subgraphLoopE graph pf visited (c :: rest) result
      = subgraphLoopE graph pf (visited ++ [c])
          (enqueueRefs (visited ++ [c]) (extractReferences fe) rest)
          (result ++ [(c, fe)]) := by
  rw [subgraphLoopE]
  rw [if_neg hc]
  split
  · rename_i heq
    rw [hf] at heq
    cases heq
  · rename_i e' heq
    rw [hf] at heq
    cases heq
    split
    · rename_i msg happ'
      rw [happ] at happ'
      cases happ'
    · rename_i fe' happ'
      rw [happ] at happ'
      cases happ'
      rfl

/-- With no property filters the throwing traversal never throws and agrees
with the total one. -/
theorem subgraphLoopE_no_filters (graph : List Entity) :
    ∀ visited toProcess result,
      subgraphLoopE graph none visited toProcess result
        = .ok (subgraphLoop graph none visited toProcess result) := by
  intro visited toProcess result
  induction visited, toProcess, result using subgraphLoopE.induct graph none with
  | case1 visited result =>
    rw [subgraphLoopE_nil, subgraphLoop_nil]
  | case2 visited c rest result hc ih =>
    rw [subgraphLoopE_visited graph none rest result hc,
        subgraphLoop_visited graph none rest result hc]
    exact ih
  | case3 visited c rest result hc hfind ih =>
    rw [subgraphLoopE_none graph none rest result hc hfind,
        subgraphLoop_none graph none rest result hc hfind]
    exact ih
  | case4 visited c rest result hc e hfind msg happ =>
    exact absurd happ (by simp [applyPropertyFiltersE])
  | case5 visited c rest result hc e hfind fe happ ih =>
    simp only [applyPropertyFiltersE, Except.ok.injEq] at happ
    subst happ
    rw [subgraphLoopE_found graph none rest result hc hfind
          (show applyPropertyFiltersE none e = Except.ok e from rfl),
        subgraphLoop_found graph none rest result hc hfind]
    exact ih

/-- Model of `extractSubgraph(graph, id, propertyFilters?)` with throws. -/
def extractSubgraphE (graph : List Entity) (id : String)
    (propertyFilters : Option (List PropertyFilterRule)) :
    Except String (List Entity) :=
  match subgraphLoopE graph propertyFilters [] [id] [] with
  | .error msg => .error msg
  | .ok l => .ok (l.map Prod.snd)

theorem extractSubgraphE_no_filters (graph : List Entity) (id : String) :
    extractSubgraphE graph id none = .ok (extractSubgraph graph id none) := by
  unfold extractSubgraphE extractSubgraph
  rw [subgraphLoopE_no_filters]

/-- The per-root loop of `extractSubgraphs` with throws: the first root
whose extraction throws aborts the whole union. -/
def extractSubgraphsGoE (graph : List Entity)
    (pf : Option (List PropertyFilterRule)) :
    List String → List (String × Entity) →
    Except String (List (String × Entity))
  | [], acc => .ok acc
  | id :: rest, acc =>
    match extractSubgraphE graph id pf with
    | .error msg => .error msg
    | .ok sub =>
      extractSubgraphsGoE graph pf rest
        (sub.foldl (fun m e => assocSet m e.id e) acc)

/-- Model of `extractSubgraphs(graph, ids, propertyFilters?)` with throws. -/
def extractSubgraphsE (graph : List Entity) (ids : List String)
    (propertyFilters : Option (List PropertyFilterRule)) :
    Except String (List Entity) :=
  match extractSubgraphsGoE graph propertyFilters ids [] with
  | .error msg => .error msg
  | .ok l => .ok (l.map Prod.snd)

theorem extractSubgraphsGoE_no_filters (graph : List Entity) :
    ∀ (ids : List String) (acc : List (String × Entity)),
      ∃ l, extractSubgraphsGoE graph none ids acc = .ok l
  | [], acc => ⟨acc, rfl⟩
  | id :: rest, acc => by
    unfold extractSubgraphsGoE
    rw [extractSubgraphE_no_filters]
    exact extractSubgraphsGoE_no_filters graph rest _

theorem extractSubgraphsE_no_filters (graph : List Entity)
    (ids : List String) : ∃ l, extractSubgraphsE graph ids none = .ok l := by
  obtain ⟨l, hl⟩ := extractSubgraphsGoE_no_filters graph ids []
  unfold extractSubgraphsE
  rw [hl]
  exact ⟨_, rfl⟩

/-- Model of `JsonLdBuilder.processGraph()`: validate, then the five layers.
The property-filter evaluation — fused into the subgraph extraction of
layer 1 or applied graph-wide in layer 2 — can throw a TypeError on a
null-valued selector comparison (see `matchFieldE`); the populate, append
and pipe layers are total. -/
def processGraph (config : JsonLdConfig) : Except String (List Entity) :=
  match config.baseGraph with
  | none =>
    .error "No base graph provided. Use baseGraph() or mergeConfig() with a baseGraph."
  | some bg =>
    let errors := validateRuntimeConfig config
    if 0 < errors.length then
      .error ("Configuration validation failed: " ++ String.intercalate ", " errors)
    else
      match bg with
      | .notArray => .error "baseGraph must be an array"
      | .ofGraph g =>
        let propertyFilters := buildPropertyFilterConfig config
        -- Layer 1: subgraph extraction consumes the property filters
        let layer1 : Except String (List Entity × Bool) :=
          match config.filters.bind JsonLdFilterOptions.subgraphRoots with
          | some roots =>
            if 0 < roots.length then
              match extractSubgraphsE g roots propertyFilters with
              | .error msg => .error msg
              | .ok g1 => .ok (g1, true)
            else .ok (g, false)
          | none => .ok (g, false)
        match layer1 with
        | .error msg => .error msg
        | .ok (g1, pfApplied) =>
          -- Layer 2: property filters when unconsumed, then entity filters
          let layer2 : Except String (List Entity) :=
            match config.filters with
            | some f =>
              match (if pfApplied = false then
                      match propertyFilters with
                      | some pfRules => filterGraphPropertiesE pfRules g1
                      | none => .ok g1
                     else .ok g1) with
              | .error msg => .error msg
              | .ok g2 => .ok (filterJsonLdGraph g2 f)
            | none => .ok g1
          match layer2 with
          | .error msg => .error msg
          | .ok g2 =>
            -- Layer 3: populate
            let layer3 := match config.populateConfig with
              | some pc => applyPopulateConfig g2 pc
              | none => g2
            -- Layer 4: additional entities appended verbatim
            let layer4 := match config.additionalEntities with
              | some es => if 0 < es.length then layer3 ++ es else layer3
              | none => layer3
            -- Layer 5: pipes in registration order
            let layer5 := match config.pipes with
              | some ps =>
                if 0 < ps.length then ps.foldl (fun acc p => p acc) layer4
                else layer4
              | none => layer4
            .ok layer5

/-! ## Claim C7: pipeline error behaviour -/

theorem processGraph_missing (config : JsonLdConfig)
    (hbg : config.baseGraph = none) :
    processGraph config
      = .error "No base graph provided. Use baseGraph() or mergeConfig() with a baseGraph." := by
  unfold processGraph
  rw [hbg]

theorem processGraph_notArray (config : JsonLdConfig)
    (hbg : config.baseGraph = some .notArray) :
    ∃ msg, processGraph config = .error msg := by
  have herr : 0 < (validateRuntimeConfig config).length := by
    unfold validateRuntimeConfig
    rw [hbg]
    simp
  unfold processGraph
  rw [hbg]
  simp only [herr, if_pos]
  exact ⟨_, rfl⟩

theorem processGraph_badMax (config : JsonLdConfig) {g : List Entity}
    {f : JsonLdFilterOptions} {m : Int}
    (hbg : config.baseGraph = some (.ofGraph g))
    (hf : config.filters = some f) (hm : f.maxEntities = some m)
    (hlt : m < 1) :
    ∃ msg, processGraph config = .error msg := by
  have herr : 0 < (validateRuntimeConfig config).length := by
    unfold validateRuntimeConfig
    rw [hbg, hf]
    simp [hm, hlt]
  unfold processGraph
  rw [hbg]
  simp only [herr, if_pos]
  exact ⟨_, rfl⟩

theorem processGraph_ok (config : JsonLdConfig) {g : List Entity}
    (hbg : config.baseGraph = some (.ofGraph g))
    (hmax : ∀ f m, config.filters = some f → f.maxEntities = some m → 1 ≤ m)
    (hpf : buildPropertyFilterConfig config = none) :
    ∃ gr, processGraph config = .ok gr := by
  have herr : validateRuntimeConfig config = [] := by
    unfold validateRuntimeConfig
    rw [hbg]
    cases hf : config.filters with
    | none => simp
    | some f =>
      cases hm : f.maxEntities with
      | none => simp [hm]
      | some m =>
        have := hmax f m hf hm
        simp [hm]
        omega
  unfold processGraph
  rw [hbg, herr, hpf]
  cases hroots : config.filters.bind JsonLdFilterOptions.subgraphRoots with
  | none =>
    cases hf : config.filters with
    | none => simp
    | some f => simp
  | some roots =>
    by_cases hlen : 0 < roots.length
    · obtain ⟨l, hl⟩ := extractSubgraphsE_no_filters g roots
      cases hf : config.filters with
      | none => simp [hlen, hl]
      | some f => simp [hlen, hl]
    · cases hf : config.filters with
      | none => simp [hlen]
      | some f => simp [hlen]

/-- The counterexample configuration for C7: an array `baseGraph`, no
`maxEntities`, and one property-filter rule whose selector expects `null`
for property `p`. -/
def nullSelectorConfig : JsonLdConfig :=
  { baseGraph := some (.ofGraph [⟨"a", [("p", JsonValue.str "x")]⟩])
    filters := some
      { propertyFilters := some
          [⟨.fields [("p", JsonValue.null)], none, none⟩] } }

/-- Counterexample to C7 as stated: a configuration with a present array
`baseGraph`, no `maxEntities`, and a property-filter rule whose selector
carries a null expected value makes the run throw (the source evaluates
`expectedValue['@id']` because `typeof null === 'object'`), although none of
the three claimed error conditions holds — so "errors iff no baseGraph,
non-array baseGraph, or maxEntities < 1" is false at this input. -/
theorem processGraph_throws_on_null_selector :
    ¬ ((∃ msg, processGraph nullSelectorConfig = .error msg) ↔
        (nullSelectorConfig.baseGraph = none ∨
         nullSelectorConfig.baseGraph = some .notArray ∨
         ∃ f m, nullSelectorConfig.filters = some f ∧
           f.maxEntities = some m ∧ m < 1)) := by
  intro h
  have herr : processGraph nullSelectorConfig
      = .error "TypeError: Cannot read properties of null (reading @id)" := by
    rfl
  rcases h.mp ⟨_, herr⟩ with hbg | hbg | ⟨f, m, hf, hm, _⟩
  · simp [nullSelectorConfig] at hbg
  · simp [nullSelectorConfig] at hbg
  · have hf' := Option.some.inj hf
    rw [← hf'] at hm
    simp [nullSelectorConfig] at hm

/-- C7 (amended): the pipeline throws whenever the configuration has no
`baseGraph`, a non-array `baseGraph`, or `maxEntities < 1`; when the
configuration carries no property-filter rules these are the **only**
errors — the run produces a result without raising, unknown subgraph roots
and unresolved references merely narrowing it.  With property-filter rules
configured, selector matching can additionally throw a TypeError on a
null-valued comparison (a null selector field value, or a null entity value
compared against an `@id`-object), as the counterexample above shows, so the
original iff is restricted to filter-free configurations. -/
theorem processGraph_error_characterization :
    (∀ config : JsonLdConfig,
      (config.baseGraph = none ∨
       config.baseGraph = some .notArray ∨
       ∃ f m, config.filters = some f ∧ f.maxEntities = some m ∧ m < 1) →
      ∃ msg, processGraph config = .error msg) ∧
    (∀ config : JsonLdConfig, buildPropertyFilterConfig config = none →
      ((∃ msg, processGraph config = .error msg) ↔
        (config.baseGraph = none ∨
         config.baseGraph = some .notArray ∨
         ∃ f m, config.filters = some f ∧ f.maxEntities = some m ∧ m < 1))) := by
  have herror : ∀ config : JsonLdConfig,
      (config.baseGraph = none ∨
       config.baseGraph = some .notArray ∨
       ∃ f m, config.filters = some f ∧ f.maxEntities = some m ∧ m < 1) →
      ∃ msg, processGraph config = .error msg := by
    intro config hcond
    rcases hcond with hbg | hbg | ⟨f, m, hf, hm, hlt⟩
    · exact ⟨_, processGraph_missing config hbg⟩
    · exact processGraph_notArray config hbg
    · cases hbg : config.baseGraph with
      | none => exact ⟨_, processGraph_missing config hbg⟩
      | some bg =>
        cases bg with
        | notArray => exact processGraph_notArray config hbg
        | ofGraph g => exact processGraph_badMax config hbg hf hm hlt
  refine ⟨herror, ?_⟩
  intro config hpf
  constructor
  · rintro ⟨msg, hmsg⟩
    by_contra hcon
    push_neg at hcon
    obtain ⟨hbg1, hbg2, hfm⟩ := hcon
    cases hbg : config.baseGraph with
    | none => exact hbg1 hbg
    | some bg =>
      cases bg with
      | notArray => exact hbg2 hbg
      | ofGraph g =>
        obtain ⟨gr, hgr⟩ := processGraph_ok config hbg
          (fun f m hf hm => by
            have := hfm f m hf hm
            omega)
          hpf
        rw [hgr] at hmsg
        cases hmsg
  · exact herror config

/-- Witness for C7's amended theorem: a missing `baseGraph` errors, and a
filter-free configuration with an (empty) array `baseGraph` satisfies the
error-iff-validation characterisation. -/
theorem processGraph_error_characterization_witness :
    (∃ msg, processGraph {} = .error msg) ∧
    ((∃ msg,
        processGraph { baseGraph := some (.ofGraph []) } = .error msg) ↔
      (({ baseGraph := some (.ofGraph []) } : JsonLdConfig).baseGraph = none ∨
       ({ baseGraph := some (.ofGraph []) } : JsonLdConfig).baseGraph
          = some .notArray ∨
       ∃ f m,
         ({ baseGraph := some (.ofGraph []) } : JsonLdConfig).filters = some f ∧
         f.maxEntities = some m ∧ m < 1)) :=
  ⟨processGraph_error_characterization.1 {} (Or.inl rfl),
   processGraph_error_characterization.2 { baseGraph := some (.ofGraph []) } rfl⟩

/-! ## Claim C8: array setters concatenate -/

/-- C8: repeated `includeIds` calls concatenate rather than replace:
after two calls the stored list is the previous `includeIds` (empty if none)
followed by the first argument followed by the second; in particular
`createJsonLdConfig().includeIds(['a','b']).includeIds(['c'])` stores
`['a','b','c']`. -/
theorem includeIds_concatenates :
    (∀ (c : JsonLdConfig) (xs ys : List String),
      ((JsonLdConfigBuilder.includeIds
            (JsonLdConfigBuilder.includeIds c xs) ys).filters.bind
          JsonLdFilterOptions.includeIds)
        = some
            (((c.filters.bind JsonLdFilterOptions.includeIds).getD [])
              ++ xs ++ ys)) ∧
    ((JsonLdConfigBuilder.includeIds
          (JsonLdConfigBuilder.includeIds createJsonLdConfig ["a", "b"])
          ["c"]).filters.bind JsonLdFilterOptions.includeIds
      = some ["a", "b", "c"]) :=
  ⟨fun _ _ _ => rfl, rfl⟩

/-! ## Claim C9: `populateEntities` replaces per-entity rules -/

theorem assocLookup_cons {α : Type} (a : String × α)
    (rest : List (String × α)) (k : String) :
    assocLookup (a :: rest) k
      = if a.1 = k then some a.2 else assocLookup rest k := by
  obtain ⟨k', v⟩ := a
  rfl

theorem assocLookup_replace_self {α : Type} {k : String} {v : α} :
    ∀ {m : List (String × α)}, k ∈ m.map Prod.fst →
      assocLookup (m.map (fun p => if p.1 = k then (k, v) else p)) k = some v
  | [], h => absurd h (by simp)
  | (k', v') :: rest, h => by
    simp only [List.map_cons]
    rw [assocLookup_cons]
    by_cases hk : k' = k
    · rw [show (if ((k', v') : String × α).1 = k then (k, v) else (k', v'))
            = (k, v) from by simp [hk]]
      simp
    · have hrest : k ∈ rest.map Prod.fst := by
        simp only [List.map_cons, List.mem_cons] at h
        rcases h with h | h
        · exact absurd h.symm hk
        · exact h
      rw [show (if ((k', v') : String × α).1 = k then (k, v) else (k', v'))
            = (k', v') from by simp [hk]]
      rw [if_neg (by simpa using hk)]
      exact assocLookup_replace_self hrest

theorem assocLookup_append_self {α : Type} {k : String} {v : α} :
    ∀ {m : List (String × α)}, k ∉ m.map Prod.fst →
      assocLookup (m ++ [(k, v)]) k = some v
  | [], _ => by simp [assocLookup]
  | (k', v') :: rest, h => by
    have hk : k' ≠ k := fun he => h (by simp [he])
    have hrest : k ∉ rest.map Prod.fst := fun hm => h (by simp [hm])
    rw [List.cons_append, assocLookup_cons]
    rw [if_neg (by simpa using hk)]
    exact assocLookup_append_self hrest

theorem assocLookup_replace_other {α : Type} {k k' : String} {v : α}
    (hne : k' ≠ k) :
    ∀ (m : List (String × α)),
      assocLookup (m.map (fun p => if p.1 = k then (k, v) else p)) k'
        = assocLookup m k'
  | [] => rfl
  | (a, b) :: rest => by
    simp only [List.map_cons]
    rw [assocLookup_cons, assocLookup_cons]
    by_cases hak : a = k
    · rw [show (if ((a, b) : String × α).1 = k then (k, v) else (a, b))
            = (k, v) from by simp [hak]]
      rw [if_neg (by simpa using Ne.symm hne)]
      rw [if_neg (by simp [hak]; exact Ne.symm (hak ▸ hne))]
      exact assocLookup_replace_other hne rest
    · rw [show (if ((a, b) : String × α).1 = k then (k, v) else (a, b))
            = (a, b) from by simp [hak]]
      by_cases hak' : a = k'
      · rw [if_pos (by simpa using hak'), if_pos (by simpa using hak')]
      · rw [if_neg (by simpa using hak'), if_neg (by simpa using hak')]
        exact assocLookup_replace_other hne rest

theorem assocLookup_append_other {α : Type} {k k' : String} {v : α}
    (hne : k' ≠ k) :
    ∀ (m : List (String × α)),
      assocLookup (m ++ [(k, v)]) k' = assocLookup m k'
  | [] => by simp [assocLookup, Ne.symm hne]
  | (a, b) :: rest => by
    rw [List.cons_append, assocLookup_cons, assocLookup_cons]
    by_cases hak' : a = k'
    · rw [if_pos (by simpa using hak'), if_pos (by simpa using hak')]
    · rw [if_neg (by simpa using hak'), if_neg (by simpa using hak')]
      exact assocLookup_append_other hne rest

theorem assocLookup_assocSet_self {α : Type} (m : List (String × α))
    (k : String) (v : α) : assocLookup (assocSet m k v) k = some v := by
  unfold assocSet
  split
  · rename_i h
    exact assocLookup_replace_self (by simpa using h)
  · rename_i h
    exact assocLookup_append_self (by simpa using h)

theorem assocLookup_assocSet_other {α : Type} (m : List (String × α))
    (k k' : String) (v : α) (hne : k' ≠ k) :
    assocLookup (assocSet m k v) k' = assocLookup m k' := by
  unfold assocSet
  split
  · exact assocLookup_replace_other hne m
  · exact assocLookup_append_other hne m

/-- Counterexample to C9 as stated: with stored rules `[employees]` for
`"e"`, `populateEntities(['e'], {e: [members]})` records `[members]` — not
the concatenation `[employees, members]`. -/
theorem populateEntities_not_concatenating :
    ¬ (((JsonLdConfigBuilder.populateEntities
          { populateConfig := some [("e", [⟨"employees", []⟩])] }
          ["e"] [("e", [⟨"members", []⟩])]).populateConfig.bind
        (fun pc => assocLookup pc "e"))
      = some [⟨"employees", ([] : List Entity)⟩, ⟨"members", []⟩]) := by
  intro h
  have hL : ((JsonLdConfigBuilder.populateEntities
        { populateConfig := some [("e", [⟨"employees", []⟩])] }
        ["e"] [("e", [⟨"members", []⟩])]).populateConfig.bind
      (fun pc => assocLookup pc "e"))
      = some [⟨"members", ([] : List Entity)⟩] := rfl
  rw [hL] at h
  simp at h

/-- C9 (amended): `populateEntities([e], {e: newRules})` **replaces** the
stored rules for `e` with `newRules` (assignment, not concatenation), and
leaves the rules of every other entity id unchanged. -/
theorem populateEntities_replaces :
    ∀ (c : JsonLdConfig) (e : String) (rules : List PopulateProperty),
      ((JsonLdConfigBuilder.populateEntities c [e] [(e, rules)]).populateConfig.bind
          (fun pc => assocLookup pc e)) = some rules ∧
      (∀ e', e' ≠ e →
        ((JsonLdConfigBuilder.populateEntities c [e] [(e, rules)]).populateConfig.bind
            (fun pc => assocLookup pc e'))
          = assocLookup (c.populateConfig.getD []) e') := by
  intro c e rules
  have hstep : (JsonLdConfigBuilder.populateEntities c [e] [(e, rules)]).populateConfig
      = some (assocSet (c.populateConfig.getD []) e rules) := by
    unfold JsonLdConfigBuilder.populateEntities
    simp [assocLookup]
  constructor
  · rw [hstep]
    exact assocLookup_assocSet_self _ e rules
  · intro e' hne
    rw [hstep]
    exact assocLookup_assocSet_other _ e e' rules hne

/-- Witness for C9's amended theorem at concrete inputs. -/
theorem populateEntities_replaces_witness :
    ((JsonLdConfigBuilder.populateEntities
        { populateConfig := some [("a", [⟨"old", []⟩]), ("b", [⟨"keep", []⟩])] }
        ["a"] [("a", [⟨"new", []⟩])]).populateConfig.bind
      (fun pc => assocLookup pc "a")) = some [⟨"new", ([] : List Entity)⟩] ∧
    ((JsonLdConfigBuilder.populateEntities
        { populateConfig := some [("a", [⟨"old", []⟩]), ("b", [⟨"keep", []⟩])] }
        ["a"] [("a", [⟨"new", []⟩])]).populateConfig.bind
      (fun pc => assocLookup pc "b"))
      = assocLookup [("a", [⟨"old", ([] : List Entity)⟩]), ("b", [⟨"keep", []⟩])] "b" :=
  ⟨(populateEntities_replaces
      { populateConfig := some [("a", [⟨"old", []⟩]), ("b", [⟨"keep", []⟩])] }
      "a" [⟨"new", []⟩]).1,
   (populateEntities_replaces
      { populateConfig := some [("a", [⟨"old", []⟩]), ("b", [⟨"keep", []⟩])] }
      "a" [⟨"new", []⟩]).2 "b" (by decide)⟩

end JsonLdTools
